import Mathlib

/-!
# To-Do List Manager: the task store of `script.js`

A shallow embedding of the class `TodoApp` of `src/script.js`: the task
collection, the operations `addTask`, `toggleComplete`, `deleteTask`,
`getFilteredTasks`, `updateStats`, `saveTasks` and `loadTasks`, and the
properties of the specification about them.

Conventions of the embedding.

* A JavaScript string is the list of its UTF-16 code units (`JsString`).
* The fields of `this` that the operations read or write are the fields of
  the structure `TodoApp`; a method is a function from the state before the
  call to the state after it.
* What the host answers during a call (the clock, `Math.random`, `confirm`,
  whether `localStorage.setItem` throws) is the record `Env`, an argument of
  the method.
* The DOM is not modelled: `render` only displays `getFilteredTasks` and
  `updateStats`, which are functions of the state.
* The built-ins `JSON.stringify`, `JSON.parse`, `String.prototype.trim`,
  `String.prototype.includes` and `String.prototype.toLowerCase` are written
  out after ECMA-262; the Unicode Character Database that `toLowerCase` reads
  is an argument of `getFilteredTasks`.
-/

namespace Todo

/-! ## Strings -/

/-- A JavaScript string: its sequence of UTF-16 code units. -/
abbrev JsString := List Nat

/-- The JavaScript string that a string literal of the source denotes (UTF-16
encoding of its code points). -/
def utf16 (s : String) : JsString :=
  s.toList.flatMap fun c =>
    if c.toNat < 0x10000 then [c.toNat]
    else [0xD800 + (c.toNat - 0x10000) / 0x400, 0xDC00 + (c.toNat - 0x10000) % 0x400]

/-- The code units that `String.prototype.trim` strips: ECMAScript `WhiteSpace`
(TAB, VT, FF, SP, NBSP, ZWNBSP and the Unicode category Zs) and
`LineTerminator` (LF, CR, LS, PS). -/
def isWhiteSpace (c : Nat) : Bool :=
  c == 0x0009 || c == 0x000A || c == 0x000B || c == 0x000C || c == 0x000D ||
  c == 0x0020 || c == 0x00A0 || c == 0x1680 || (0x2000 ≤ c && c ≤ 0x200A) ||
  c == 0x2028 || c == 0x2029 || c == 0x202F || c == 0x205F || c == 0x3000 ||
  c == 0xFEFF

/-- JavaScript `String.prototype.trim`: white space removed from both ends. -/
def trim (s : JsString) : JsString :=
  ((s.dropWhile isWhiteSpace).reverse.dropWhile isWhiteSpace).reverse

/-- JavaScript `String.prototype.includes`: `needle` occurs in `s` as a run of
consecutive code units. -/
def includes : JsString → JsString → Bool
  | [], needle => needle.isEmpty
  | c :: s, needle => needle.isPrefixOf (c :: s) || includes s needle

/-- One digit of `Number.prototype.toString(36)`: `0`-`9`, then `a`-`z`. -/
def digit36 (d : Nat) : Nat := if d < 10 then 48 + d else 87 + d

/-- The digits of `n` in radix 36, most significant first, in front of `acc`. -/
def toRadix36 : Nat → Nat → JsString → JsString
  | 0, _, acc => acc
  | fuel + 1, n, acc =>
    if n / 36 = 0 then digit36 (n % 36) :: acc
    else toRadix36 fuel (n / 36) (digit36 (n % 36) :: acc)

/-- JavaScript `n.toString(36)` for a non-negative integer `n`. -/
def toString36 (n : Nat) : JsString := toRadix36 (n + 1) n []

/-! ## Data model -/

/-- A task record, as `addTask` builds it. -/
structure Task where
  id : JsString
  text : JsString
  priority : JsString
  completed : Bool
  createdAt : JsString
deriving DecidableEq, Repr

/-- A value that `JSON.parse` can return. A number is kept as the text of its
literal, which stands for the double it denotes (floating point is not
modelled). The properties of an object are listed in enumeration order. -/
inductive JsValue where
  | null
  | bool (b : Bool)
  | num (literal : JsString)
  | str (s : JsString)
  | arr (items : List JsValue)
  | obj (props : List (JsString × JsValue))

/-- What a host function throws. -/
inductive JsError where
  | syntaxError
  | domException
deriving DecidableEq, Repr

/-- The object `{ id, text, priority, completed, createdAt }` of a task. -/
def Task.toJs (t : Task) : JsValue :=
  .obj [(utf16 "id", .str t.id), (utf16 "text", .str t.text),
        (utf16 "priority", .str t.priority), (utf16 "completed", .bool t.completed),
        (utf16 "createdAt", .str t.createdAt)]

/-- The array `this.tasks`. -/
def tasksToJs (tasks : List Task) : JsValue := .arr (tasks.map Task.toJs)

/-! ## The host's `JSON.stringify` and `JSON.parse`

Both are built into the host; they are written out here after ECMA-262
(`QuoteJSONString`, `SerializeJSONArray`, `SerializeJSONObject`, and the JSON
grammar of ECMA-404), without a replacer, reviver or indentation, as the
source calls them. -/

namespace JSON

/-- A lowercase hexadecimal digit. -/
def hexDigit (d : Nat) : Nat := if d < 10 then 48 + d else 87 + d

/-- ECMAScript `UnicodeEscape`: a backslash, `u`, and four lowercase hex digits. -/
def unicodeEscape (c : Nat) : JsString :=
  [92, 117, hexDigit (c / 4096 % 16), hexDigit (c / 256 % 16), hexDigit (c / 16 % 16),
   hexDigit (c % 16)]

def isLeadSurrogate (c : Nat) : Bool := 0xD800 ≤ c && c ≤ 0xDBFF

def isTrailSurrogate (c : Nat) : Bool := 0xDC00 ≤ c && c ≤ 0xDFFF

/-- The text `QuoteJSONString` emits for one code point that is a single code
unit: the two-character escapes, `UnicodeEscape` for the other control
characters and for a surrogate that stands alone, the unit itself otherwise. -/
def quoteUnit (c : Nat) : JsString :=
  if c = 8 then [92, 98]
  else if c = 9 then [92, 116]
  else if c = 10 then [92, 110]
  else if c = 12 then [92, 102]
  else if c = 13 then [92, 114]
  else if c = 34 then [92, 34]
  else if c = 92 then [92, 92]
  else if c < 32 || isLeadSurrogate c || isTrailSurrogate c then unicodeEscape c
  else [c]

/-- ECMAScript `QuoteJSONString` without the enclosing quotes: a surrogate pair is one
code point and is copied, every other code unit goes through `quoteUnit`. -/
def quoteBody : JsString → JsString
  | [] => []
  | [c] => quoteUnit c
  | c :: d :: rest =>
    if isLeadSurrogate c && isTrailSurrogate d then c :: d :: quoteBody rest
    else quoteUnit c ++ quoteBody (d :: rest)

/-- ECMAScript `QuoteJSONString`. -/
def quote (s : JsString) : JsString := 34 :: quoteBody s ++ [34]

mutual
/-- ECMAScript `SerializeJSONProperty` on a value of the model. -/
def stringify : JsValue → JsString
  | .null => utf16 "null"
  | .bool true => utf16 "true"
  | .bool false => utf16 "false"
  | .num literal => literal
  | .str s => quote s
  | .arr items => 91 :: stringifyItems items ++ [93]
  | .obj props => 123 :: stringifyProps props ++ [125]
/-- The elements of an array, separated by commas. -/
def stringifyItems : List JsValue → JsString
  | [] => []
  | [v] => stringify v
  | v :: w :: rest => stringify v ++ 44 :: stringifyItems (w :: rest)
/-- The members `"key":value` of an object, separated by commas. -/
def stringifyProps : List (JsString × JsValue) → JsString
  | [] => []
  | [(k, v)] => quote k ++ 58 :: stringify v
  | (k, v) :: q :: rest => quote k ++ 58 :: stringify v ++ 44 :: stringifyProps (q :: rest)
end

/-- ECMAScript `JSONWhiteSpace`: TAB, LF, CR, SP. -/
def isWs (c : Nat) : Bool := c == 9 || c == 10 || c == 13 || c == 32

def skipWs (s : JsString) : JsString := s.dropWhile isWs

def isDigit (c : Nat) : Bool := 48 ≤ c && c ≤ 57

/-- The value of a hexadecimal digit, of either case. -/
def hexVal (c : Nat) : Option Nat :=
  if 48 ≤ c ∧ c ≤ 57 then some (c - 48)
  else if 97 ≤ c ∧ c ≤ 102 then some (c - 87)
  else if 65 ≤ c ∧ c ≤ 70 then some (c - 55)
  else none

/-- The code unit of `\uXXXX`. -/
def hex4 (a b c d : Nat) : Option Nat :=
  match hexVal a, hexVal b, hexVal c, hexVal d with
  | some x, some y, some z, some w => some (((x * 16 + y) * 16 + z) * 16 + w)
  | _, _, _, _ => none

/-- The code unit a `JSONEscapeCharacter` stands for. -/
def unescape (e : Nat) : Option Nat :=
  if e = 34 then some 34
  else if e = 47 then some 47
  else if e = 92 then some 92
  else if e = 98 then some 8
  else if e = 102 then some 12
  else if e = 110 then some 10
  else if e = 114 then some 13
  else if e = 116 then some 9
  else none

/-- ECMAScript `JSONStringCharacters` up to and including the closing quote: the string
value and the text after the quote. A control character below U+0020 may not
stand unescaped. -/
def parseChars : JsString → Option (JsString × JsString)
  | [] => none
  | c :: rest =>
    if c = 34 then some ([], rest)
    else if c = 92 then
      match rest with
      | [] => none
      | e :: rest1 =>
        if e = 117 then
          match rest1 with
          | h1 :: h2 :: h3 :: h4 :: rest2 =>
            match hex4 h1 h2 h3 h4 with
            | some u => (parseChars rest2).map fun r => (u :: r.1, r.2)
            | none => none
          | _ => none
        else
          match unescape e with
          | some u => (parseChars rest1).map fun r => (u :: r.1, r.2)
          | none => none
    else if c < 32 then none
    else (parseChars rest).map fun r => (c :: r.1, r.2)

/-- The longest run of decimal digits at the head of `s`, and what follows. -/
def takeDigits (s : JsString) : JsString × JsString := s.span isDigit

/-- The integer part of a `JSONNumber`: `0`, or a non-zero digit and digits. -/
def parseInt (s : JsString) : Option (JsString × JsString) :=
  match s with
  | [] => none
  | c :: rest =>
    if c = 48 then some ([48], rest)
    else if 49 ≤ c ∧ c ≤ 57 then some (c :: (takeDigits rest).1, (takeDigits rest).2)
    else none

/-- The optional fraction of a `JSONNumber`: a point and at least one digit. -/
def parseFrac (s : JsString) : Option (JsString × JsString) :=
  match s with
  | [] => some ([], [])
  | c :: rest =>
    if c = 46 then
      if (takeDigits rest).1 = [] then none
      else some (46 :: (takeDigits rest).1, (takeDigits rest).2)
    else some ([], c :: rest)

/-- The digits of an exponent, at least one. -/
def parseExpDigits (s : JsString) : Option (JsString × JsString) :=
  if (takeDigits s).1 = [] then none else some (takeDigits s)

/-- The optional exponent of a `JSONNumber`: `e` or `E`, an optional sign, and
at least one digit. -/
def parseExp (s : JsString) : Option (JsString × JsString) :=
  match s with
  | [] => some ([], [])
  | c :: rest =>
    if c = 101 ∨ c = 69 then
      match rest with
      | [] => none
      | g :: rest1 =>
        if g = 43 ∨ g = 45 then
          (parseExpDigits rest1).map fun r => (c :: g :: r.1, r.2)
        else (parseExpDigits (g :: rest1)).map fun r => (c :: r.1, r.2)
    else some ([], c :: rest)

/-- A `JSONNumber`: the text of the literal and what follows it. -/
def parseNumber (s : JsString) : Option (JsString × JsString) :=
  let signed : JsString × JsString :=
    match s with
    | [] => ([], [])
    | c :: rest => if c = 45 then ([45], rest) else ([], c :: rest)
  match parseInt signed.2 with
  | none => none
  | some (int, s1) =>
    match parseFrac s1 with
    | none => none
    | some (frac, s2) =>
      match parseExp s2 with
      | none => none
      | some (exp, s3) => some (signed.1 ++ int ++ frac ++ exp, s3)

/-- The number a property key denotes when the key is an array index: a
canonical decimal numeral below `2^32 - 1`. -/
def arrayIndex? (k : JsString) : Option Nat :=
  match k with
  | [] => none
  | c :: rest =>
    if (c :: rest).all isDigit && (c != 48 || rest.isEmpty) then
      let n := (c :: rest).foldl (fun acc d => acc * 10 + (d - 48)) 0
      if n < 4294967295 then some n else none
    else none

/-- The place of a new array-index key: after the index keys below it. -/
def insertIndexed (n : Nat) (k : JsString) (v : JsValue) :
    List (JsString × JsValue) → List (JsString × JsValue)
  | [] => [(k, v)]
  | p :: ps =>
    match arrayIndex? p.1 with
    | some m => if m < n then p :: insertIndexed n k v ps else (k, v) :: p :: ps
    | none => (k, v) :: p :: ps

/-- ECMAScript `CreateDataProperty` on an ordinary object: a key that is already there
keeps its place and takes the new value; a new array-index key goes among the
index keys, in ascending order; any other new key goes last. -/
def defineProp (props : List (JsString × JsValue)) (k : JsString) (v : JsValue) :
    List (JsString × JsValue) :=
  if props.any (fun p => p.1 == k) then
    props.map fun p => if p.1 == k then (k, v) else p
  else
    match arrayIndex? k with
    | some n => insertIndexed n k v props
    | none => props ++ [(k, v)]

mutual
/-- A JSON value at the head of the text, after optional white space: the
value and the text that follows it. -/
def parseValue : Nat → JsString → Option (JsValue × JsString)
  | 0, _ => none
  | fuel + 1, s =>
    match skipWs s with
    | [] => none
    | c :: rest =>
      if c = 34 then (parseChars rest).map fun r => (.str r.1, r.2)
      else if c = 91 then
        match skipWs rest with
        | [] => none
        | d :: rest1 =>
          if d = 93 then some (.arr [], rest1)
          else (parseElements fuel (d :: rest1)).map fun r => (.arr r.1, r.2)
      else if c = 123 then
        match skipWs rest with
        | [] => none
        | d :: rest1 =>
          if d = 125 then some (.obj [], rest1)
          else (parseMembers fuel (d :: rest1)).map fun r => (.obj (r.1.foldl (fun o m => defineProp o m.1 m.2) []), r.2)
      else if (utf16 "true").isPrefixOf (c :: rest) then some (.bool true, (c :: rest).drop 4)
      else if (utf16 "false").isPrefixOf (c :: rest) then some (.bool false, (c :: rest).drop 5)
      else if (utf16 "null").isPrefixOf (c :: rest) then some (.null, (c :: rest).drop 4)
      else (parseNumber (c :: rest)).map fun r => (.num r.1, r.2)
/-- The elements of a non-empty array, up to and including the closing
bracket. -/
def parseElements : Nat → JsString → Option (List JsValue × JsString)
  | 0, _ => none
  | fuel + 1, s =>
    match parseValue fuel s with
    | none => none
    | some (v, s1) =>
      match skipWs s1 with
      | [] => none
      | d :: rest =>
        if d = 44 then (parseElements fuel rest).map fun r => (v :: r.1, r.2)
        else if d = 93 then some ([v], rest)
        else none
/-- The members of a non-empty object, up to and including the closing
brace. -/
def parseMembers : Nat → JsString → Option (List (JsString × JsValue) × JsString)
  | 0, _ => none
  | fuel + 1, s =>
    match skipWs s with
    | [] => none
    | q :: s0 =>
      if q = 34 then
        match parseChars s0 with
        | none => none
        | some (k, s1) =>
          match skipWs s1 with
          | [] => none
          | colon :: s2 =>
            if colon = 58 then
              match parseValue fuel s2 with
              | none => none
              | some (v, s3) =>
                match skipWs s3 with
                | [] => none
                | d :: rest =>
                  if d = 44 then (parseMembers fuel rest).map fun r => ((k, v) :: r.1, r.2)
                  else if d = 125 then some ([(k, v)], rest)
                  else none
            else none
      else none
end

/-- JavaScript `JSON.parse(text)`: the value of the text, or a `SyntaxError` when the
text is not one JSON value between optional white space. The fuel bounds the
nesting of the recursive descent: twice the length of the text is never
exhausted, since two nested calls consume at least one code unit. -/
def parse (text : JsString) : Except JsError JsValue :=
  match parseValue (2 * text.length + 2) text with
  | none => .error .syntaxError
  | some (v, rest) => if skipWs rest = [] then .ok v else .error .syntaxError

end JSON

/-! ## The host's `String.prototype.toLowerCase`

ECMA-262 defines it by the default case conversion of the Unicode Standard
(section 3.13): every code point is replaced by its lowercase mapping, and a
capital sigma in the position `Final_Sigma` by the final small sigma. The
algorithm is written out here; the Unicode Character Database that it reads
is an argument. -/

/-- The data of the Unicode Character Database that `toLowerCase` reads. -/
structure CaseData where
  /-- The lowercase mapping of a code point (`UnicodeData.txt`, and the
  unconditional rows of `SpecialCasing.txt`); the code point itself when it has
  none. -/
  lowerMapping : Nat → List Nat
  /-- The property `Cased`. -/
  cased : Nat → Bool
  /-- The property `Case_Ignorable`. -/
  caseIgnorable : Nat → Bool

/-- ECMAScript `StringToCodePoints`: a lead surrogate and the trail surrogate
after it are one code point, every other code unit is a code point. -/
def toCodePoints : JsString → List Nat
  | [] => []
  | [c] => [c]
  | c :: d :: rest =>
    if JSON.isLeadSurrogate c && JSON.isTrailSurrogate d then
      (0x10000 + (c - 0xD800) * 0x400 + (d - 0xDC00)) :: toCodePoints rest
    else c :: toCodePoints (d :: rest)

/-- ECMAScript `CodePointsToString`: the UTF-16 encoding of the code points. -/
def fromCodePoints (points : List Nat) : JsString :=
  points.flatMap fun p =>
    if p < 0x10000 then [p]
    else [0xD800 + (p - 0x10000) / 0x400, 0xDC00 + (p - 0x10000) % 0x400]

/-- The code points, read in order, are zero or more case-ignorable ones and
then a cased one. -/
def casedAfterIgnorable (unicode : CaseData) : List Nat → Bool
  | [] => false
  | p :: rest =>
    unicode.cased p || (unicode.caseIgnorable p && casedAfterIgnorable unicode rest)

/-- The condition `Final_Sigma`: the code point is preceded by a cased letter
and then zero or more case-ignorable code points, and is not followed by zero
or more case-ignorable code points and then a cased letter. `before` lists the
code points before it, the nearest first. -/
def finalSigma (unicode : CaseData) (before after : List Nat) : Bool :=
  casedAfterIgnorable unicode before && !casedAfterIgnorable unicode after

/-- The lowercase mapping of each code point in its context. -/
def lowerCodePoints (unicode : CaseData) : List Nat → List Nat → List Nat
  | _, [] => []
  | before, p :: after =>
    (if p = 0x03A3 ∧ finalSigma unicode before after = true then [0x03C2]
      else unicode.lowerMapping p) ++
    lowerCodePoints unicode (p :: before) after

/-- JavaScript `String.prototype.toLowerCase`. -/
def toLowerCase (unicode : CaseData) (s : JsString) : JsString :=
  fromCodePoints (lowerCodePoints unicode [] (toCodePoints s))

/-! ## The application -/

/-- The fields of a `TodoApp` instance that the task store reads and writes,
with the values of the form controls and the one key of `localStorage`. -/
structure TodoApp where
  /-- The collection `this.tasks`, newest first. -/
  tasks : List Task
  /-- The active filter, `this.currentFilter`. -/
  currentFilter : JsString
  /-- The text in the input box, `this.taskInput.value`. -/
  taskInput : JsString
  /-- The selected priority, `this.prioritySelect.value`. -/
  prioritySelect : JsString
  /-- The text in the search box, `this.searchInput.value`. -/
  searchInput : JsString
  /-- The message `showError` displays, when it has been called. -/
  errorMessage : Option JsString
  /-- The value stored under the key `todoTasks`, when there is one. -/
  storage : Option JsString
deriving DecidableEq, Repr

/-- What the host answers during one call of a method. -/
structure Env where
  /-- The integer `Date.now()` returns. -/
  now : Nat
  /-- The text of `Math.random().toString(36)`. -/
  random36 : JsString
  /-- The text of `new Date().toISOString()`. -/
  isoNow : JsString
  /-- The answer to the `confirm` dialogue. -/
  confirm : Bool
  /-- Whether `localStorage.setItem` throws (a full or disabled store). -/
  setItemThrows : Bool
deriving DecidableEq, Repr

namespace TodoApp

/-- Method `generateId()`: the clock in radix 36, then the random text after `0.`. -/
def generateId (env : Env) : JsString :=
  toString36 env.now ++ env.random36.drop 2

/-- Method `showError(message)`: the message is put on display. (It is hidden again
three seconds later, which touches no task and is not modelled.) -/
def showError (message : JsString) (app : TodoApp) : TodoApp :=
  { app with errorMessage := some message }

/-- Method `saveTasks()`: the collection is serialised and written; when the write
throws, the error is caught and reported, and the collection stays. -/
def saveTasks (env : Env) (app : TodoApp) : TodoApp :=
  let attempt : Except JsError TodoApp :=
    if env.setItemThrows then .error .domException
    else .ok { app with storage := some (JSON.stringify (tasksToJs app.tasks)) }
  match attempt with
  | .ok saved => saved
  | .error _ => showError (utf16 "Error saving tasks. Please try again.") app

/-- Method `loadTasks()`, given what `localStorage.getItem('todoTasks')` answers: it
throws, or returns `null` (`none`) or the stored text. A stored text that is
not the empty string is parsed; whatever is thrown is caught and replaced by
the empty array. -/
def loadTasks (getItem : Except JsError (Option JsString)) : Except JsError JsValue :=
  let attempt : Except JsError JsValue :=
    match getItem with
    | .error thrown => .error thrown
    | .ok none => .ok (.arr [])
    | .ok (some saved) => if saved ≠ [] then JSON.parse saved else .ok (.arr [])
  match attempt with
  | .ok value => .ok value
  | .error _ => .ok (.arr [])

/-- Method `addTask()`. -/
def addTask (env : Env) (app : TodoApp) : TodoApp :=
  let text := trim app.taskInput
  let priority := app.prioritySelect
  if text = [] then showError (utf16 "Please enter a task!") app
  else
    let newTask : Task :=
      { id := generateId env
        text := text
        priority := priority
        completed := false
        createdAt := env.isoNow }
    let app := { app with tasks := newTask :: app.tasks }
    let app := { app with taskInput := [], prioritySelect := utf16 "low" }
    saveTasks env app

/-- Method `toggleComplete(taskId)`: `find` stops at the first task with the id, and
that task is the one whose flag is assigned. -/
def toggleComplete (env : Env) (taskId : JsString) (app : TodoApp) : TodoApp :=
  match app.tasks.findIdx? (fun t => t.id == taskId) with
  | some i =>
    saveTasks env
      { app with
        tasks := app.tasks.modify (fun task => { task with completed := !task.completed }) i }
  | none => app

/-- Method `deleteTask(taskId)`. -/
def deleteTask (env : Env) (taskId : JsString) (app : TodoApp) : TodoApp :=
  if env.confirm then
    saveTasks env { app with tasks := app.tasks.filter (fun t => t.id != taskId) }
  else app

/-- Method `setFilter(filter)`. -/
def setFilter (filter : JsString) (app : TodoApp) : TodoApp :=
  { app with currentFilter := filter }

/-- Method `getFilteredTasks()`. The Unicode Character Database that the host's
`toLowerCase` reads is no part of the source: it is the argument `unicode`. -/
def getFilteredTasks (unicode : CaseData) (app : TodoApp) : List Task :=
  let filtered := app.tasks
  let filtered :=
    if app.currentFilter = utf16 "completed" then filtered.filter (fun task => task.completed)
    else if app.currentFilter = utf16 "pending" then filtered.filter (fun task => !task.completed)
    else filtered
  let searchTerm := trim (toLowerCase unicode app.searchInput)
  if searchTerm ≠ [] then
    filtered.filter (fun task => includes (toLowerCase unicode task.text) searchTerm)
  else filtered

/-- The three counters `updateStats` displays. -/
structure Stats where
  total : Int
  completed : Int
  pending : Int
deriving DecidableEq, Repr

/-- Method `updateStats()`. -/
def updateStats (app : TodoApp) : Stats :=
  let total : Int := app.tasks.length
  let completed : Int := (app.tasks.filter (fun task => task.completed)).length
  let pending := total - completed
  { total := total, completed := completed, pending := pending }

end TodoApp

/-! ## Sequences of user actions -/

/-- A user action that reaches the task store: the add button with the text
and priority of the form, the complete/undo button of a task, the delete
button of a task. -/
inductive Action where
  | addTask (text priority : JsString)
  | toggleComplete (taskId : JsString)
  | deleteTask (taskId : JsString)
deriving DecidableEq, Repr

/-- One action, with the host's answers during it. -/
def step (app : TodoApp) (event : Env × Action) : TodoApp :=
  match event.2 with
  | .addTask text priority =>
    TodoApp.addTask event.1 { app with taskInput := text, prioritySelect := priority }
  | .toggleComplete taskId => TodoApp.toggleComplete event.1 taskId app
  | .deleteTask taskId => TodoApp.deleteTask event.1 taskId app

/-- The state after a sequence of actions. -/
def run (app : TodoApp) (events : List (Env × Action)) : TodoApp :=
  events.foldl step app

/-- The ids of a collection, in order. -/
def ids (tasks : List Task) : List JsString := tasks.map (fun t => t.id)

/-- Every id that `generateId` returns during the sequence is carried by no
task of the collection at that moment. `generateId` is called by `addTask`
only, and only when the trimmed text is not empty. -/
def freshIds : TodoApp → List (Env × Action) → Bool
  | _, [] => true
  | app, event :: rest =>
    (match event.2 with
      | .addTask text _ =>
        decide (trim text = []) || !(ids app.tasks).contains (TodoApp.generateId event.1)
      | _ => true) &&
    freshIds (step app event) rest

/-! ## Definitions that follow the words of the specification -/

/-- The status filters of the specification. -/
inductive Status where
  | all
  | completed
  | pending
deriving DecidableEq, Repr

/-- The value of `data-filter` that selects a status. -/
def Status.name : Status → JsString
  | .all => utf16 "all"
  | .completed => utf16 "completed"
  | .pending => utf16 "pending"

/-- The status predicate: every task, `completed == true`, `completed == false`. -/
def Status.holds : Status → Task → Bool
  | .all, _ => true
  | .completed, t => t.completed == true
  | .pending, t => t.completed == false

/-- Lower case of one ASCII code unit: `A`-`Z` become `a`-`z`. -/
def lowerUnit (c : Nat) : Nat := if 65 ≤ c ∧ c ≤ 90 then c + 32 else c

/-- Lower case on ASCII text. -/
def asciiLower (s : JsString) : JsString := s.map lowerUnit

/-- Two code units are the same letter up to the case of `A`-`Z`. -/
def sameLetter (a b : Nat) : Prop :=
  a = b ∨ (65 ≤ a ∧ a ≤ 90 ∧ b = a + 32) ∨ (65 ≤ b ∧ b ≤ 90 ∧ a = b + 32)

/-- Two strings are equal when the case of `A`-`Z` is ignored. -/
def equalIgnoringCase (x y : JsString) : Prop := List.Forall₂ sameLetter x y

/-- The text contains the needle as a substring, compared without regard to
case: a run of consecutive code units of the text equals the needle when case
is ignored. -/
def containsIgnoringCase (text needle : JsString) : Prop :=
  ∃ run, run <:+: text ∧ equalIgnoringCase run needle

/-- The text in lower case contains the search string in lower case, trimmed. -/
def containsLowered (unicode : CaseData) (search : JsString) (t : Task) : Bool :=
  decide (trim (toLowerCase unicode search) <:+: toLowerCase unicode t.text)

/-- The rows of the Unicode Character Database for Basic Latin and for the
Greek letters U+0391-U+03A9 and U+03B1-U+03C9. Every other code point is
entered without case: the entry stands for the database on strings that stay
within these rows. -/
def unicodeExcerpt : CaseData :=
  { lowerMapping := fun p =>
      if (0x41 ≤ p ∧ p ≤ 0x5A) ∨ (0x0391 ≤ p ∧ p ≤ 0x03A9 ∧ p ≠ 0x03A2) then [p + 32] else [p]
    cased := fun p =>
      (0x41 ≤ p && p ≤ 0x5A) || (0x61 ≤ p && p ≤ 0x7A) ||
      (0x0391 ≤ p && p ≤ 0x03A9 && p != 0x03A2) || (0x03B1 ≤ p && p ≤ 0x03C9)
    caseIgnorable := fun p =>
      p == 0x27 || p == 0x2E || p == 0x3A || p == 0x5E || p == 0x60 }

/-- The flag of a task negated, as `task.completed = !task.completed` leaves
it. -/
def flipped (t : Task) : Task := { t with completed := !t.completed }

/-! ## Sample data -/

/-- Host answers for one call: the clock at 1700000000000 ms. -/
def sampleEnv : Env :=
  { now := 1700000000000
    random36 := utf16 "0.4fzyo82mvyr"
    isoNow := utf16 "2023-11-14T22:13:20.000Z"
    confirm := true
    setItemThrows := false }

/-- Host answers one millisecond later, with another random number. -/
def laterEnv : Env :=
  { now := 1700000000001
    random36 := utf16 "0.k2j8d1x9qpe"
    isoNow := utf16 "2023-11-14T22:13:20.001Z"
    confirm := true
    setItemThrows := false }

def milkTask : Task :=
  { id := utf16 "a1", text := utf16 "Buy Milk", priority := utf16 "high", completed := false,
    createdAt := utf16 "2023-11-14T22:13:20.000Z" }

def reportTask : Task :=
  { id := utf16 "b2", text := utf16 "Write report", priority := utf16 "medium",
    completed := true, createdAt := utf16 "2023-11-14T22:10:00.000Z" }

/-- A second task that carries the id of `milkTask`. -/
def twinTask : Task :=
  { id := utf16 "a1", text := utf16 "Call client", priority := utf16 "low", completed := true,
    createdAt := utf16 "2023-11-14T22:00:00.000Z" }

/-- The application right after start, with nothing stored. -/
def emptyApp : TodoApp :=
  { tasks := [], currentFilter := utf16 "all", taskInput := [], prioritySelect := utf16 "low",
    searchInput := [], errorMessage := none, storage := none }

/-- Two tasks, and `  Buy milk  ` with priority `high` in the form. -/
def sampleApp : TodoApp :=
  { emptyApp with
    tasks := [milkTask, reportTask]
    taskInput := utf16 "  Buy milk  "
    prioritySelect := utf16 "high" }

/-- White space only in the input box: spaces, a tab and a no-break space. -/
def blankApp : TodoApp :=
  { sampleApp with taskInput := utf16 "  \t \u00a0" }

/-- A task whose text is the three Greek capitals alpha, sigma, alpha. -/
def sigmaTask : Task :=
  { id := utf16 "c3", text := utf16 "\u0391\u03a3\u0391", priority := utf16 "low",
    completed := false, createdAt := utf16 "2023-11-14T22:20:00.000Z" }

/-- That task, the filter `all`, and the capitals alpha, sigma in the search
box. -/
def sigmaApp : TodoApp :=
  { emptyApp with tasks := [sigmaTask], searchInput := utf16 "\u0391\u03a3" }

/-- The search box holds a space, a tab and an ideographic space. -/
def blankSearchApp : TodoApp :=
  { sampleApp with searchInput := utf16 " \t\u3000" }

/-- The search box holds ` MILK `. -/
def searchApp : TodoApp :=
  { sampleApp with searchInput := utf16 " MILK " }

/-- Two tasks with the same id and different flags. -/
def twinApp : TodoApp :=
  { emptyApp with tasks := [reportTask, milkTask, twinTask] }

/-- A stored text in which two task records carry the id `a1`. -/
def twinStore : JsString :=
  utf16 ("[\x7b\"id\":\"a1\",\"text\":\"Buy Milk\",\"priority\":\"high\",\"completed\":false," ++
    "\"createdAt\":\"2023-11-14T22:13:20.000Z\"\x7d," ++
    "\x7b\"id\":\"a1\",\"text\":\"Call client\",\"priority\":\"low\",\"completed\":true," ++
    "\"createdAt\":\"2023-11-14T22:00:00.000Z\"\x7d]")

/-! # Theorems -/

/-! ## Strings: `trim` and `includes` -/

theorem trim_eq_nil_iff (s : JsString) : trim s = [] ↔ ∀ c ∈ s, isWhiteSpace c = true := by
  unfold trim
  rw [List.reverse_eq_nil_iff, List.dropWhile_eq_nil_iff]
  constructor
  · intro h
    have hd : s.dropWhile isWhiteSpace = [] := by
      by_contra hne
      have h1 := List.head_dropWhile_not isWhiteSpace s hne
      have h2 := h _ (List.mem_reverse.mpr (List.head_mem hne))
      simp [h2] at h1
    exact List.dropWhile_eq_nil_iff.mp hd
  · intro h c hc
    have hd : s.dropWhile isWhiteSpace = [] := List.dropWhile_eq_nil_iff.mpr h
    simp [hd] at hc

theorem includes_iff (s needle : JsString) : includes s needle = true ↔ needle <:+: s := by
  induction s with
  | nil => simp [includes, List.isEmpty_iff]
  | cons c s ih =>
    simp only [includes, Bool.or_eq_true, ih, List.isPrefixOf_iff_prefix]
    rw [List.infix_cons_iff]

/-! ## The store operations -/

namespace TodoApp

@[simp] theorem saveTasks_tasks (env : Env) (app : TodoApp) :
    (saveTasks env app).tasks = app.tasks := by
  unfold saveTasks showError
  cases env.setItemThrows <;> rfl

/-- The collection splits around the first task with the id, or no task has
the id. -/
theorem exists_split (taskId : JsString) (tasks : List Task) :
    (∃ pre t post, tasks = pre ++ t :: post ∧ (∀ x ∈ pre, x.id ≠ taskId) ∧ t.id = taskId) ∨
    (∀ x ∈ tasks, x.id ≠ taskId) := by
  induction tasks with
  | nil => right; simp
  | cons a l ih =>
    by_cases ha : a.id = taskId
    · left
      exact ⟨[], a, l, rfl, by simp, ha⟩
    · rcases ih with ⟨pre, t, post, hl, hpre, ht⟩ | hall
      · left
        refine ⟨a :: pre, t, post, by simp [hl], ?_, ht⟩
        intro x hx
        rcases List.mem_cons.mp hx with rfl | hx
        · exact ha
        · exact hpre x hx
      · right
        intro x hx
        rcases List.mem_cons.mp hx with rfl | hx
        · exact ha
        · exact hall x hx

/-- The task `find` returns is the first one with the id. -/
theorem findIdx_of_split (taskId : JsString) (pre : List Task) (t : Task) (post : List Task)
    (hpre : ∀ x ∈ pre, x.id ≠ taskId) (ht : t.id = taskId) :
    (pre ++ t :: post).findIdx? (fun t => t.id == taskId) = some pre.length := by
  induction pre with
  | nil => simp [List.findIdx?_cons, ht]
  | cons a l ih =>
    have ha : a.id ≠ taskId := hpre a (by simp)
    have hl : ∀ x ∈ l, x.id ≠ taskId := fun x hx => hpre x (by simp [hx])
    simp [List.findIdx?_cons, ha, List.findIdx?_succ, ih hl]

theorem findIdx_of_absent (taskId : JsString) (tasks : List Task)
    (habsent : ∀ x ∈ tasks, x.id ≠ taskId) :
    tasks.findIdx? (fun t => t.id == taskId) = none := by
  rw [List.findIdx?_eq_none_iff]
  intro x hx
  simpa using habsent x hx

theorem modify_split (f : Task → Task) (pre : List Task) (t : Task) (post : List Task) :
    (pre ++ t :: post).modify f pre.length = pre ++ f t :: post := by
  induction pre with
  | nil => simp [List.modify]
  | cons a l ih => simpa [List.modify] using ih

theorem toggleComplete_tasks_of_split (env : Env) (taskId : JsString) (app : TodoApp)
    (pre : List Task) (t : Task) (post : List Task) (hsplit : app.tasks = pre ++ t :: post)
    (hpre : ∀ x ∈ pre, x.id ≠ taskId) (ht : t.id = taskId) :
    (toggleComplete env taskId app).tasks = pre ++ flipped t :: post := by
  unfold toggleComplete
  rw [hsplit, findIdx_of_split taskId pre t post hpre ht]
  simp only [saveTasks_tasks]
  rw [modify_split]
  rfl

theorem toggleComplete_tasks_of_absent (env : Env) (taskId : JsString) (app : TodoApp)
    (habsent : ∀ x ∈ app.tasks, x.id ≠ taskId) :
    toggleComplete env taskId app = app := by
  unfold toggleComplete
  rw [findIdx_of_absent taskId app.tasks habsent]

/-- C1. When the trimmed input is not empty, `addTask` puts the new task in
front of the collection: its text is the trimmed input, its priority the
selected one, `completed` is false; the tasks that were there follow it
unchanged and in order, and the length grows by one. -/
theorem addTask_prepends (env : Env) (app : TodoApp) (hinput : trim app.taskInput ≠ []) :
    (addTask env app).tasks =
        { id := generateId env, text := trim app.taskInput, priority := app.prioritySelect,
          completed := false, createdAt := env.isoNow } :: app.tasks ∧
      (∃ newTask, (addTask env app).tasks[0]? = some newTask ∧
        newTask.text = trim app.taskInput ∧ newTask.priority = app.prioritySelect ∧
        newTask.completed = false) ∧
      (∀ i, (addTask env app).tasks[i + 1]? = app.tasks[i]?) ∧
      (addTask env app).tasks.length = app.tasks.length + 1 := by
  have h : (addTask env app).tasks =
      { id := generateId env, text := trim app.taskInput, priority := app.prioritySelect,
        completed := false, createdAt := env.isoNow } :: app.tasks := by
    unfold addTask
    simp [hinput]
  refine ⟨h, ?_, ?_, ?_⟩
  · rw [h]
    exact ⟨_, List.getElem?_cons_zero, rfl, rfl, rfl⟩
  · intro i
    rw [h, List.getElem?_cons_succ]
  · rw [h, List.length_cons]

/-- C2. When the input is empty or all white space, `addTask` takes the error
branch: it shows the validation message and returns; the collection (and the
rest of the state, the stored value included) is as it was. -/
theorem addTask_blank (env : Env) (app : TodoApp)
    (hblank : ∀ c ∈ app.taskInput, isWhiteSpace c = true) :
    addTask env app = showError (utf16 "Please enter a task!") app ∧
      (addTask env app).tasks = app.tasks ∧
      (addTask env app).tasks.length = app.tasks.length ∧
      (addTask env app).storage = app.storage ∧
      (addTask env app).errorMessage = some (utf16 "Please enter a task!") := by
  have h : addTask env app = showError (utf16 "Please enter a task!") app := by
    unfold addTask
    simp [(trim_eq_nil_iff app.taskInput).mpr hblank]
  rw [h]
  exact ⟨rfl, rfl, rfl, rfl, rfl⟩

/-- C3. `toggleComplete(id)`: when some task has the id, the collection is
`pre ++ t :: post` with `t` the first task with the id, and the result is
`pre ++ t' :: post` where `t'` is `t` with `completed` negated and the other
fields as they were; length and the order of ids are unchanged. When no task
has the id, the state is unchanged. -/
theorem toggleComplete_frame (env : Env) (taskId : JsString) (app : TodoApp) :
    ((∃ x ∈ app.tasks, x.id = taskId) →
      ∃ pre t post, app.tasks = pre ++ t :: post ∧ (∀ x ∈ pre, x.id ≠ taskId) ∧
        t.id = taskId ∧
        (toggleComplete env taskId app).tasks =
          pre ++ { id := t.id, text := t.text, priority := t.priority,
                   completed := !t.completed, createdAt := t.createdAt } :: post) ∧
    ((∀ x ∈ app.tasks, x.id ≠ taskId) → toggleComplete env taskId app = app) ∧
    (toggleComplete env taskId app).tasks.length = app.tasks.length ∧
    ids (toggleComplete env taskId app).tasks = ids app.tasks := by
  rcases exists_split taskId app.tasks with ⟨pre, t, post, h, hpre, ht⟩ | hall
  · have hres := toggleComplete_tasks_of_split env taskId app pre t post h hpre ht
    refine ⟨fun _ => ⟨pre, t, post, h, hpre, ht, hres⟩, ?_, ?_, ?_⟩
    · intro habsent
      exact absurd ht (habsent t (by rw [h]; simp))
    · rw [hres, h]; simp
    · rw [hres, h]; simp [ids, flipped]
  · have hres := toggleComplete_tasks_of_absent env taskId app hall
    refine ⟨?_, fun _ => hres, by rw [hres], by rw [hres]⟩
    rintro ⟨x, hx, hxid⟩
    exact absurd hxid (hall x hx)

/-- C4. A confirmed `deleteTask(id)` leaves exactly the tasks whose id differs
from `id`, in their original order; when no task has the id the collection is
unchanged, with the same length. -/
theorem deleteTask_removes (env : Env) (taskId : JsString) (app : TodoApp)
    (hconfirm : env.confirm = true) :
    (deleteTask env taskId app).tasks = app.tasks.filter (fun t => decide (t.id ≠ taskId)) ∧
      (deleteTask env taskId app).tasks.Sublist app.tasks ∧
      (∀ t, t ∈ (deleteTask env taskId app).tasks ↔ t ∈ app.tasks ∧ t.id ≠ taskId) ∧
      ((∀ t ∈ app.tasks, t.id ≠ taskId) →
        (deleteTask env taskId app).tasks = app.tasks ∧
        (deleteTask env taskId app).tasks.length = app.tasks.length) := by
  have h : (deleteTask env taskId app).tasks =
      app.tasks.filter (fun t => decide (t.id ≠ taskId)) := by
    unfold deleteTask
    simp only [hconfirm, if_true, saveTasks_tasks]
    congr 1
    funext t
    by_cases hid : t.id = taskId <;> simp [hid]
  refine ⟨h, ?_, ?_, ?_⟩
  · rw [h]; exact List.filter_sublist _
  · intro t; rw [h]; simp
  · intro habsent
    have hid : (deleteTask env taskId app).tasks = app.tasks := by
      rw [h]
      exact List.filter_eq_self.mpr (fun t ht => by simpa using habsent t ht)
    exact ⟨hid, by rw [hid]⟩

/-- C6. The counters of `updateStats`: `total` is the size of the collection,
`completed` the number of completed tasks, `pending = total - completed` is
the number of tasks that are not completed, and `total = completed + pending`;
all three are 0 for the empty collection. -/
theorem updateStats_sum (app : TodoApp) :
    (updateStats app).total = app.tasks.length ∧
      (updateStats app).completed = app.tasks.countP (fun t => t.completed == true) ∧
      (updateStats app).pending = (updateStats app).total - (updateStats app).completed ∧
      (updateStats app).pending = app.tasks.countP (fun t => t.completed == false) ∧
      (updateStats app).total = (updateStats app).completed + (updateStats app).pending ∧
      (app.tasks = [] → updateStats app = { total := 0, completed := 0, pending := 0 }) := by
  have hlen := List.length_eq_countP_add_countP (fun t : Task => t.completed == true) app.tasks
  have hneg : List.countP (fun t : Task => decide ¬(t.completed == true) = true) app.tasks =
      List.countP (fun t : Task => t.completed == false) app.tasks := by
    congr 1
    funext t
    cases t.completed <;> rfl
  have hc : (List.filter (fun t : Task => t.completed) app.tasks).length =
      List.countP (fun t : Task => t.completed == true) app.tasks := by
    rw [List.countP_eq_length_filter]
    congr 2
    funext t
    cases t.completed <;> rfl
  have htotal : (updateStats app).total = app.tasks.length := rfl
  have hcompleted : (updateStats app).completed =
      List.countP (fun t : Task => t.completed == true) app.tasks := by
    show ((List.filter (fun t : Task => t.completed) app.tasks).length : Int) = _
    rw [hc]
  have hpending : (updateStats app).pending =
      (updateStats app).total - (updateStats app).completed := rfl
  refine ⟨htotal, hcompleted, hpending, ?_, ?_, ?_⟩
  · rw [hpending, htotal, hcompleted, ← hneg]; omega
  · rw [hpending]; omega
  · intro hnil
    simp [updateStats, hnil]

/-- C7. `toggleComplete` is its own inverse on the collection: two calls with
the same id give back the original collection, whether the id is absent,
carried by one task, or shared by several. -/
theorem toggleComplete_twice (env1 env2 : Env) (taskId : JsString) (app : TodoApp) :
    (toggleComplete env2 taskId (toggleComplete env1 taskId app)).tasks = app.tasks ∧
      ∀ i : Nat, ((toggleComplete env2 taskId (toggleComplete env1 taskId app)).tasks[i]?).map
          (fun t => t.completed) = (app.tasks[i]?).map (fun t => t.completed) := by
  have h : (toggleComplete env2 taskId (toggleComplete env1 taskId app)).tasks = app.tasks := by
    rcases exists_split taskId app.tasks with ⟨pre, t, post, h, hpre, ht⟩ | hall
    · have h1 := toggleComplete_tasks_of_split env1 taskId app pre t post h hpre ht
      have h2 := toggleComplete_tasks_of_split env2 taskId (toggleComplete env1 taskId app)
        pre (flipped t) post h1 hpre ht
      rw [h2, h]
      simp [flipped]
    · rw [toggleComplete_tasks_of_absent env1 taskId app hall,
        toggleComplete_tasks_of_absent env2 taskId app hall]
  exact ⟨h, fun i => by rw [h]⟩

end TodoApp

/-! ## The host's `toLowerCase` -/

theorem toCodePoints_of_no_lead (s : JsString)
    (h : ∀ c ∈ s, JSON.isLeadSurrogate c = false) : toCodePoints s = s := by
  induction s with
  | nil => rfl
  | cons c s ih =>
    have hs : toCodePoints s = s := ih (fun x hx => h x (List.mem_cons_of_mem _ hx))
    cases s with
    | nil => rfl
    | cons d rest =>
      rw [toCodePoints, h c (List.mem_cons_self _ _), Bool.false_and, if_neg (by simp), hs]

theorem lowerCodePoints_of_simple (unicode : CaseData) (f : Nat → Nat) (points : List Nat)
    (h : ∀ p ∈ points, p ≠ 0x03A3 ∧ unicode.lowerMapping p = [f p]) (before : List Nat) :
    lowerCodePoints unicode before points = points.map f := by
  induction points generalizing before with
  | nil => rfl
  | cons p rest ih =>
    have hp := h p (List.mem_cons_self _ _)
    rw [lowerCodePoints, if_neg (fun hsigma => hp.1 hsigma.1), hp.2,
      ih (fun x hx => h x (List.mem_cons_of_mem _ hx))]
    rfl

theorem fromCodePoints_of_bmp (points : List Nat) (h : ∀ p ∈ points, p < 0x10000) :
    fromCodePoints points = points := by
  induction points with
  | nil => rfl
  | cons p rest ih =>
    have hp := h p (List.mem_cons_self _ _)
    have hrest := ih (fun x hx => h x (List.mem_cons_of_mem _ hx))
    unfold fromCodePoints at hrest ⊢
    rw [List.flatMap_cons, hrest, if_pos hp]
    rfl

/-- On a string without surrogates, sigma or multi-character mappings,
`toLowerCase` maps code unit by code unit. -/
theorem toLowerCase_of_simple (unicode : CaseData) (f : Nat → Nat) (s : JsString)
    (h : ∀ c ∈ s, JSON.isLeadSurrogate c = false ∧ c ≠ 0x03A3 ∧
      unicode.lowerMapping c = [f c] ∧ f c < 0x10000) :
    toLowerCase unicode s = s.map f := by
  unfold toLowerCase
  rw [toCodePoints_of_no_lead s (fun c hc => (h c hc).1),
    lowerCodePoints_of_simple unicode f s (fun c hc => ⟨(h c hc).2.1, (h c hc).2.2.1⟩),
    fromCodePoints_of_bmp]
  intro p hp
  obtain ⟨c, hc, rfl⟩ := List.mem_map.mp hp
  exact (h c hc).2.2.2

theorem toLowerCase_nil (unicode : CaseData) : toLowerCase unicode [] = [] := rfl

theorem isWhiteSpace_bmp (c : Nat) (hc : isWhiteSpace c = true) :
    JSON.isLeadSurrogate c = false ∧ c ≠ 0x03A3 ∧ c < 0x10000 := by
  simp only [isWhiteSpace, Bool.or_eq_true, Bool.and_eq_true, beq_iff_eq,
    decide_eq_true_eq] at hc
  simp only [JSON.isLeadSurrogate, Bool.and_eq_false_iff, decide_eq_false_iff_not]
  omega

/-- White space has no case: a string of white space is its own lower case. -/
theorem toLowerCase_of_whiteSpace (unicode : CaseData)
    (hdata : ∀ c, isWhiteSpace c = true → unicode.lowerMapping c = [c]) (s : JsString)
    (hs : ∀ c ∈ s, isWhiteSpace c = true) : toLowerCase unicode s = s := by
  rw [toLowerCase_of_simple unicode id s, List.map_id]
  intro c hc
  have hb := isWhiteSpace_bmp c (hs c hc)
  exact ⟨hb.1, hb.2.1, hdata c (hs c hc), hb.2.2⟩

/-- On ASCII text `toLowerCase` turns `A`-`Z` into `a`-`z` and nothing else. -/
theorem toLowerCase_of_ascii (unicode : CaseData)
    (hdata : ∀ c, c < 128 → unicode.lowerMapping c = [lowerUnit c]) (s : JsString)
    (hs : ∀ c ∈ s, c < 128) : toLowerCase unicode s = asciiLower s := by
  rw [toLowerCase_of_simple unicode lowerUnit s]
  · rfl
  intro c hc
  have h128 := hs c hc
  refine ⟨?_, by omega, hdata c h128, ?_⟩
  · simp only [JSON.isLeadSurrogate, Bool.and_eq_false_iff, decide_eq_false_iff_not]
    omega
  · unfold lowerUnit
    split <;> omega

/-! ## Lower case and case-insensitive comparison on ASCII text -/

theorem lowerUnit_eq_iff (a b : Nat) : lowerUnit a = lowerUnit b ↔ sameLetter a b := by
  unfold lowerUnit sameLetter
  split <;> split <;> omega

theorem asciiLower_eq_iff (x y : JsString) :
    asciiLower x = asciiLower y ↔ equalIgnoringCase x y := by
  unfold asciiLower equalIgnoringCase
  induction x generalizing y with
  | nil =>
    cases y with
    | nil => simp
    | cons b y => simp
  | cons a x ih =>
    cases y with
    | nil => simp
    | cons b y =>
      simp only [List.map_cons, List.cons.injEq, List.forall₂_cons, lowerUnit_eq_iff, ih]

theorem infix_map_iff (f : Nat → Nat) (needle text : JsString) :
    needle <:+: text.map f ↔ ∃ run, run <:+: text ∧ run.map f = needle := by
  constructor
  · rintro ⟨s, t, h⟩
    obtain ⟨l₁, l₂, hl, h₁, h₂⟩ := List.map_eq_append_iff.mp h.symm
    obtain ⟨l₃, l₄, hl', h₃, h₄⟩ := List.map_eq_append_iff.mp h₁
    exact ⟨l₄, ⟨l₃, l₂, by rw [hl, hl']⟩, h₄⟩
  · rintro ⟨run, hrun, rfl⟩
    exact hrun.map f

/-- Containment after ASCII lower-casing is containment without regard to
case. -/
theorem asciiLower_infix_iff (needle text : JsString) :
    asciiLower needle <:+: asciiLower text ↔ containsIgnoringCase text needle := by
  unfold containsIgnoringCase
  rw [asciiLower, asciiLower, infix_map_iff]
  constructor
  · rintro ⟨run, hrun, h⟩
    exact ⟨run, hrun, (asciiLower_eq_iff run needle).mp h⟩
  · rintro ⟨run, hrun, h⟩
    exact ⟨run, hrun, (asciiLower_eq_iff run needle).mpr h⟩

theorem asciiLower_nil : asciiLower [] = [] := rfl

theorem isWhiteSpace_lowerUnit (c : Nat) : isWhiteSpace (lowerUnit c) = isWhiteSpace c := by
  unfold lowerUnit
  split
  · next h =>
    have h1 : isWhiteSpace (c + 32) = false := by
      simp only [isWhiteSpace, Bool.or_eq_false_iff, Bool.and_eq_false_iff, beq_eq_false_iff_ne,
        decide_eq_false_iff_not]
      omega
    have h2 : isWhiteSpace c = false := by
      simp only [isWhiteSpace, Bool.or_eq_false_iff, Bool.and_eq_false_iff, beq_eq_false_iff_ne,
        decide_eq_false_iff_not]
      omega
    rw [h1, h2]
  · rfl

theorem asciiLower_dropWhile (s : JsString) :
    asciiLower (s.dropWhile isWhiteSpace) = (asciiLower s).dropWhile isWhiteSpace := by
  induction s with
  | nil => rfl
  | cons c s ih =>
    have hc := isWhiteSpace_lowerUnit c
    unfold asciiLower at ih ⊢
    simp only [List.map_cons, List.dropWhile_cons, hc]
    cases isWhiteSpace c
    · simp
    · simpa using ih

theorem asciiLower_reverse (s : JsString) : asciiLower s.reverse = (asciiLower s).reverse := by
  simp [asciiLower]

/-- ASCII lower-casing and `trim` commute. -/
theorem asciiLower_trim (s : JsString) : asciiLower (trim s) = trim (asciiLower s) := by
  unfold trim
  rw [asciiLower_reverse, asciiLower_dropWhile, asciiLower_reverse, asciiLower_dropWhile]

/-- The excerpt has the database's rows for Basic Latin. -/
theorem unicodeExcerpt_ascii (c : Nat) (hc : c < 128) :
    unicodeExcerpt.lowerMapping c = [lowerUnit c] := by
  simp only [unicodeExcerpt, lowerUnit]
  split <;> split <;> first | rfl | omega

/-- The excerpt lists white space without case, as the database does. -/
theorem unicodeExcerpt_whiteSpace (c : Nat) (hc : isWhiteSpace c = true) :
    unicodeExcerpt.lowerMapping c = [c] := by
  simp only [isWhiteSpace, Bool.or_eq_true, Bool.and_eq_true, beq_iff_eq,
    decide_eq_true_eq] at hc
  simp only [unicodeExcerpt]
  rw [if_neg (by omega)]

theorem trim_ascii (s : JsString) (hs : ∀ c ∈ s, c < 128) : ∀ c ∈ trim s, c < 128 := by
  intro c hc
  unfold trim at hc
  have h1 := List.mem_reverse.mp hc
  have h2 := (List.dropWhile_sublist isWhiteSpace).subset h1
  have h3 := List.mem_reverse.mp h2
  exact hs c ((List.dropWhile_sublist isWhiteSpace).subset h3)

/-! ## The view projection -/

namespace TodoApp

theorem containsLowered_of_blank (unicode : CaseData) (search : JsString)
    (hblank : trim (toLowerCase unicode search) = []) (t : Task) :
    containsLowered unicode search t = true := by
  simp [containsLowered, hblank]

/-- The two passes of `getFilteredTasks` as one pass, for each status. -/
theorem getFilteredTasks_eq (unicode : CaseData) (status : Status) (app : TodoApp)
    (hstatus : app.currentFilter = status.name) :
    getFilteredTasks unicode app =
      app.tasks.filter (fun t => status.holds t && containsLowered unicode app.searchInput t) := by
  have hsearch : ∀ l : List Task,
      (if trim (toLowerCase unicode app.searchInput) ≠ [] then
        l.filter (fun task =>
          includes (toLowerCase unicode task.text) (trim (toLowerCase unicode app.searchInput)))
       else l) = l.filter (fun t => containsLowered unicode app.searchInput t) := by
    intro l
    by_cases hterm : trim (toLowerCase unicode app.searchInput) = []
    · rw [if_neg (not_not.mpr hterm)]
      symm
      apply List.filter_eq_self.mpr
      intro t _
      exact containsLowered_of_blank unicode _ hterm t
    · rw [if_pos hterm]
      congr 1
      funext t
      rw [containsLowered, Bool.eq_iff_iff, includes_iff]
      simp
  unfold getFilteredTasks
  simp only [hsearch]
  cases status
  · have h1 : app.currentFilter ≠ utf16 "completed" := by rw [hstatus]; decide
    have h2 : app.currentFilter ≠ utf16 "pending" := by rw [hstatus]; decide
    rw [if_neg h1, if_neg h2]
    simp [Status.holds]
  · have h1 : app.currentFilter = utf16 "completed" := by rw [hstatus]; rfl
    rw [if_pos h1]
    simp [Status.holds, List.filter_filter, Bool.and_comm]
  · have h1 : app.currentFilter ≠ utf16 "completed" := by rw [hstatus]; decide
    have h2 : app.currentFilter = utf16 "pending" := by rw [hstatus]; rfl
    rw [if_neg h1, if_pos h2]
    simp [Status.holds, List.filter_filter, Bool.and_comm]

/-- On ASCII text and search, the search predicate of the source is
containment of the trimmed search string without regard to case. -/
theorem containsLowered_ascii_iff (unicode : CaseData)
    (hdata : ∀ c, c < 128 → unicode.lowerMapping c = [lowerUnit c])
    (search : JsString) (hsearch : ∀ c ∈ search, c < 128)
    (t : Task) (htext : ∀ c ∈ t.text, c < 128) :
    containsLowered unicode search t = true ↔ containsIgnoringCase t.text (trim search) := by
  rw [containsLowered, decide_eq_true_eq, toLowerCase_of_ascii unicode hdata search hsearch,
    toLowerCase_of_ascii unicode hdata t.text htext, ← asciiLower_trim, asciiLower_infix_iff]

/-- C5, as the code has it. For each status filter and every search string,
`getFilteredTasks` returns, in their original order, exactly the tasks that
satisfy the status predicate and whose text in lower case contains the search
string in lower case, trimmed; lower case is the host's `toLowerCase`, for
whatever Unicode database. The empty search matches every task, and so does a
search of white space only (white space has no case mapping). With status
`pending` and the empty search the result is the tasks with
`completed == false`. When the search string and the text of a task are
ASCII, the task is returned exactly when its text contains the trimmed search
string without regard to case; a task with text `Buy Milk` matches the search
`milk`. -/
theorem getFilteredTasks_spec (unicode : CaseData) (status : Status) (app : TodoApp)
    (hstatus : app.currentFilter = status.name) :
    getFilteredTasks unicode app =
        app.tasks.filter
          (fun t => status.holds t && containsLowered unicode app.searchInput t) ∧
      (getFilteredTasks unicode app).Sublist app.tasks ∧
      (∀ t, t ∈ getFilteredTasks unicode app ↔
        t ∈ app.tasks ∧ status.holds t = true ∧
          trim (toLowerCase unicode app.searchInput) <:+: toLowerCase unicode t.text) ∧
      (app.searchInput = [] →
        getFilteredTasks unicode app = app.tasks.filter (fun t => status.holds t)) ∧
      ((∀ c, isWhiteSpace c = true → unicode.lowerMapping c = [c]) →
        (∀ c ∈ app.searchInput, isWhiteSpace c = true) →
        getFilteredTasks unicode app = app.tasks.filter (fun t => status.holds t)) ∧
      (status = Status.pending → app.searchInput = [] →
        getFilteredTasks unicode app = app.tasks.filter (fun t => t.completed == false)) ∧
      ((∀ c, c < 128 → unicode.lowerMapping c = [lowerUnit c]) →
        (∀ c ∈ app.searchInput, c < 128) →
        ∀ t, (∀ c ∈ t.text, c < 128) →
          (t ∈ getFilteredTasks unicode app ↔
            t ∈ app.tasks ∧ status.holds t = true ∧
              containsIgnoringCase t.text (trim app.searchInput))) ∧
      ((∀ c, c < 128 → unicode.lowerMapping c = [lowerUnit c]) →
        status = Status.all → app.searchInput = utf16 "milk" →
        ∀ t ∈ app.tasks, t.text = utf16 "Buy Milk" → t ∈ getFilteredTasks unicode app) := by
  have h := getFilteredTasks_eq unicode status app hstatus
  have hblank : trim (toLowerCase unicode app.searchInput) = [] →
      getFilteredTasks unicode app = app.tasks.filter (fun t => status.holds t) := by
    intro hterm
    rw [h]
    congr 1
    funext t
    rw [containsLowered_of_blank unicode _ hterm t, Bool.and_true]
  have hempty : app.searchInput = [] →
      getFilteredTasks unicode app = app.tasks.filter (fun t => status.holds t) := by
    intro hsearch
    apply hblank
    rw [hsearch]
    rfl
  have hascii : (∀ c, c < 128 → unicode.lowerMapping c = [lowerUnit c]) →
      (∀ c ∈ app.searchInput, c < 128) →
      ∀ t, (∀ c ∈ t.text, c < 128) →
        (t ∈ getFilteredTasks unicode app ↔
          t ∈ app.tasks ∧ status.holds t = true ∧
            containsIgnoringCase t.text (trim app.searchInput)) := by
    intro hdata hsearch t htext
    rw [h, List.mem_filter, Bool.and_eq_true,
      containsLowered_ascii_iff unicode hdata app.searchInput hsearch t htext]
  refine ⟨h, ?_, ?_, hempty, ?_, ?_, hascii, ?_⟩
  · rw [h]; exact List.filter_sublist _
  · intro t
    rw [h]
    simp [containsLowered]
  · intro hdata hws
    apply hblank
    rw [toLowerCase_of_whiteSpace unicode hdata app.searchInput hws]
    exact (trim_eq_nil_iff app.searchInput).mpr hws
  · intro hpending hsearch
    rw [hempty hsearch, hpending]
    rfl
  · intro hdata hall hsearch t ht htext
    rw [hascii hdata (by rw [hsearch]; decide) t (by rw [htext]; decide)]
    refine ⟨ht, by rw [hall]; rfl, ?_⟩
    rw [hsearch, htext]
    refine ⟨utf16 "Milk", by decide, ?_⟩
    rw [← asciiLower_eq_iff]
    decide

/-- C5 fails as stated. The text of the task is the Greek capitals alpha,
sigma, alpha and the search string is alpha, sigma: the text contains the
search string as it stands. In lower case the sigma of the search string is
final and the sigma of the text is not, the two differ, and
`getFilteredTasks` with the filter `all` returns no task. -/
theorem getFilteredTasks_final_sigma :
    sigmaApp.currentFilter = Status.all.name ∧
      sigmaApp.tasks = [sigmaTask] ∧
      Status.all.holds sigmaTask = true ∧
      trim sigmaApp.searchInput <:+: sigmaTask.text ∧
      containsIgnoringCase sigmaTask.text (trim sigmaApp.searchInput) ∧
      toLowerCase unicodeExcerpt sigmaTask.text = utf16 "\u03b1\u03c3\u03b1" ∧
      toLowerCase unicodeExcerpt sigmaApp.searchInput = utf16 "\u03b1\u03c2" ∧
      getFilteredTasks unicodeExcerpt sigmaApp = [] ∧
      sigmaTask ∉ getFilteredTasks unicodeExcerpt sigmaApp ∧
      (∀ unicode : CaseData,
        unicode.lowerMapping 0x0391 = [0x03B1] → unicode.lowerMapping 0x03A3 = [0x03C3] →
        unicode.cased 0x0391 = true → getFilteredTasks unicode sigmaApp = []) := by
  have hrun : trim sigmaApp.searchInput <:+: sigmaTask.text := by decide
  refine ⟨rfl, rfl, rfl, hrun, ?_, by decide, by decide, by decide, by decide, ?_⟩
  · exact ⟨_, hrun, List.forall₂_same.mpr (fun _ _ => Or.inl rfl)⟩
  · intro unicode halpha hsigma hcased
    have htext : toLowerCase unicode sigmaTask.text = utf16 "\u03b1\u03c3\u03b1" := by
      have : sigmaTask.text = [0x0391, 0x03A3, 0x0391] := by decide
      rw [this]
      simp [toLowerCase, toCodePoints, lowerCodePoints, finalSigma, casedAfterIgnorable,
        fromCodePoints, JSON.isLeadSurrogate, halpha, hsigma, hcased]
      decide
    have hsearch : toLowerCase unicode sigmaApp.searchInput = utf16 "\u03b1\u03c2" := by
      have : sigmaApp.searchInput = [0x0391, 0x03A3] := by decide
      rw [this]
      simp [toLowerCase, toCodePoints, lowerCodePoints, finalSigma, casedAfterIgnorable,
        fromCodePoints, JSON.isLeadSurrogate, halpha, hsigma, hcased]
      decide
    have happ : sigmaApp.currentFilter = Status.all.name := rfl
    rw [getFilteredTasks_eq unicode Status.all sigmaApp happ]
    have htasks : sigmaApp.tasks = [sigmaTask] := rfl
    rw [htasks]
    simp only [List.filter_cons, List.filter_nil, containsLowered, htext, hsearch]
    decide

end TodoApp

/-! ## `JSON.parse` after `JSON.stringify` -/

namespace JSON

theorem hexVal_hexDigit (d : Nat) (hd : d < 16) : hexVal (hexDigit d) = some d := by
  unfold hexVal hexDigit
  split_ifs <;> first | omega | (congr 1; omega)

theorem hex4_unicodeEscape (c : Nat) (hc : c < 65536) :
    hex4 (hexDigit (c / 4096 % 16)) (hexDigit (c / 256 % 16)) (hexDigit (c / 16 % 16))
      (hexDigit (c % 16)) = some c := by
  unfold hex4
  rw [hexVal_hexDigit _ (Nat.mod_lt _ (by decide)), hexVal_hexDigit _ (Nat.mod_lt _ (by decide)),
    hexVal_hexDigit _ (Nat.mod_lt _ (by decide)), hexVal_hexDigit _ (Nat.mod_lt _ (by decide))]
  simp only [Option.some.injEq]
  omega

theorem parseChars_close (rest : JsString) : parseChars (34 :: rest) = some ([], rest) := by
  unfold parseChars
  simp

theorem parseChars_literal (c : Nat) (h34 : c ≠ 34) (h92 : c ≠ 92) (h32 : ¬ c < 32)
    (rest : JsString) :
    parseChars (c :: rest) = (parseChars rest).map fun r => (c :: r.1, r.2) := by
  conv_lhs => unfold parseChars
  simp [h34, h92, h32]

theorem parseChars_escape (e u : Nat) (he : e ≠ 117) (hu : unescape e = some u)
    (rest : JsString) :
    parseChars (92 :: e :: rest) = (parseChars rest).map fun r => (u :: r.1, r.2) := by
  conv_lhs => unfold parseChars
  simp [he, hu]

theorem parseChars_unicodeEscape (c : Nat) (hc : c < 65536) (rest : JsString) :
    parseChars (unicodeEscape c ++ rest) = (parseChars rest).map fun r => (c :: r.1, r.2) := by
  unfold unicodeEscape
  conv_lhs => unfold parseChars
  simp [hex4_unicodeEscape c hc]

/-- Reading back what `quoteUnit` wrote gives the code unit. -/
theorem parseChars_quoteUnit (c : Nat) (rest : JsString) :
    parseChars (quoteUnit c ++ rest) = (parseChars rest).map fun r => (c :: r.1, r.2) := by
  unfold quoteUnit
  split_ifs with h8 h9 h10 h12 h13 h34 h92 hesc
  · subst h8; exact parseChars_escape 98 8 (by decide) (by decide) rest
  · subst h9; exact parseChars_escape 116 9 (by decide) (by decide) rest
  · subst h10; exact parseChars_escape 110 10 (by decide) (by decide) rest
  · subst h12; exact parseChars_escape 102 12 (by decide) (by decide) rest
  · subst h13; exact parseChars_escape 114 13 (by decide) (by decide) rest
  · subst h34; exact parseChars_escape 34 34 (by decide) (by decide) rest
  · subst h92; exact parseChars_escape 92 92 (by decide) (by decide) rest
  · apply parseChars_unicodeEscape
    simp only [isLeadSurrogate, isTrailSurrogate, Bool.or_eq_true, Bool.and_eq_true,
      decide_eq_true_eq] at hesc
    omega
  · simp only [Bool.or_eq_true, decide_eq_true_eq, not_or] at hesc
    exact parseChars_literal c h34 h92 hesc.1.1 rest

/-- Reading back what `quoteBody` wrote, up to the closing quote, gives the
string. -/
theorem parseChars_quoteBody (s rest : JsString) :
    parseChars (quoteBody s ++ 34 :: rest) = some (s, rest) := by
  induction s using quoteBody.induct with
  | case1 => exact parseChars_close rest
  | case2 c =>
    rw [quoteBody, parseChars_quoteUnit, parseChars_close]
    rfl
  | case3 c d tl hpair ih =>
    rw [quoteBody, if_pos hpair]
    simp only [isLeadSurrogate, isTrailSurrogate, Bool.and_eq_true, decide_eq_true_eq] at hpair
    rw [List.cons_append, List.cons_append,
      parseChars_literal c (by omega) (by omega) (by omega),
      parseChars_literal d (by omega) (by omega) (by omega), ih]
    rfl
  | case4 c d tl hpair ih =>
    rw [quoteBody, if_neg hpair, List.append_assoc, parseChars_quoteUnit, ih]
    rfl

theorem skipWs_cons (c : Nat) (rest : JsString) (hc : isWs c = false) :
    skipWs (c :: rest) = c :: rest := by
  simp [skipWs, List.dropWhile_cons, hc]

/-- A quoted string is read back as the string. -/
theorem parseValue_quote (fuel : Nat) (s rest : JsString) :
    parseValue (fuel + 1) (quote s ++ rest) = some (.str s, rest) := by
  rw [parseValue]
  simp only [quote, List.cons_append, List.append_assoc, List.singleton_append]
  rw [skipWs_cons 34 _ (by decide)]
  simp [parseChars_quoteBody]

theorem parseValue_bool (fuel : Nat) (b : Bool) (rest : JsString) :
    parseValue (fuel + 1) (stringify (.bool b) ++ rest) = some (.bool b, rest) := by
  have htrue : utf16 "true" = [116, 114, 117, 101] := by decide
  have hfalse : utf16 "false" = [102, 97, 108, 115, 101] := by decide
  have hnull : utf16 "null" = [110, 117, 108, 108] := by decide
  rw [parseValue]
  cases b
  · simp only [stringify, hfalse, List.cons_append]
    rw [skipWs_cons 102 _ (by decide)]
    simp [htrue, hfalse]
  · simp only [stringify, htrue, List.cons_append]
    rw [skipWs_cons 116 _ (by decide)]
    simp [htrue]

/-- One member `"key":value` followed by a comma is read back, and the
members after it are read next. -/
theorem parseMembers_comma (fuel : Nat) (k : JsString) (v : JsValue) (more : JsString)
    (hv : parseValue fuel (stringify v ++ 44 :: more) = some (v, 44 :: more)) :
    parseMembers (fuel + 1) (quote k ++ 58 :: (stringify v ++ 44 :: more)) =
      (parseMembers fuel more).map fun r => ((k, v) :: r.1, r.2) := by
  rw [parseMembers]
  simp only [quote, List.cons_append, List.append_assoc, List.singleton_append]
  rw [skipWs_cons 34 _ (by decide)]
  simp only [if_true, parseChars_quoteBody, List.nil_append]
  rw [skipWs_cons 58 _ (by decide)]
  simp only [if_true, hv]
  rw [skipWs_cons 44 _ (by decide)]
  simp

/-- The last member `"key":value`, followed by the closing brace. -/
theorem parseMembers_last (fuel : Nat) (k : JsString) (v : JsValue) (rest : JsString)
    (hv : parseValue fuel (stringify v ++ 125 :: rest) = some (v, 125 :: rest)) :
    parseMembers (fuel + 1) (quote k ++ 58 :: (stringify v ++ 125 :: rest)) =
      some ([(k, v)], rest) := by
  rw [parseMembers]
  simp only [quote, List.cons_append, List.append_assoc, List.singleton_append]
  rw [skipWs_cons 34 _ (by decide)]
  simp only [if_true, parseChars_quoteBody, List.nil_append]
  rw [skipWs_cons 58 _ (by decide)]
  simp only [if_true, hv]
  rw [skipWs_cons 125 _ (by decide)]
  simp

theorem stringify_str (s : JsString) : stringify (.str s) = quote s := by
  rw [stringify]

theorem stringify_obj (props : List (JsString × JsValue)) :
    stringify (.obj props) = 123 :: stringifyProps props ++ [125] := by
  rw [stringify]

theorem stringify_arr (items : List JsValue) :
    stringify (.arr items) = 91 :: stringifyItems items ++ [93] := by
  rw [stringify]

theorem stringifyProps_cons_cons (k : JsString) (v : JsValue) (q : JsString × JsValue)
    (rest : List (JsString × JsValue)) :
    stringifyProps ((k, v) :: q :: rest) =
      quote k ++ 58 :: stringify v ++ 44 :: stringifyProps (q :: rest) := by
  rw [stringifyProps]

theorem stringifyProps_singleton (k : JsString) (v : JsValue) :
    stringifyProps [(k, v)] = quote k ++ 58 :: stringify v := by
  rw [stringifyProps]

/-- The text of a task object. -/
theorem stringify_task (t : Task) (rest : JsString) :
    stringify t.toJs ++ rest =
      123 :: (quote (utf16 "id") ++ 58 :: (stringify (.str t.id) ++ 44 ::
        (quote (utf16 "text") ++ 58 :: (stringify (.str t.text) ++ 44 ::
        (quote (utf16 "priority") ++ 58 :: (stringify (.str t.priority) ++ 44 ::
        (quote (utf16 "completed") ++ 58 :: (stringify (.bool t.completed) ++ 44 ::
        (quote (utf16 "createdAt") ++ 58 :: (stringify (.str t.createdAt) ++ 125 ::
          rest)))))))))) := by
  rw [Task.toJs, stringify_obj, stringifyProps_cons_cons, stringifyProps_cons_cons,
    stringifyProps_cons_cons, stringifyProps_cons_cons, stringifyProps_singleton]
  simp only [List.append_assoc, List.cons_append, List.nil_append]

/-- An opening brace followed by a quoted key starts the members. -/
theorem parseValue_object (fuel : Nat) (k tail : JsString) :
    parseValue (fuel + 1) (123 :: (quote k ++ tail)) =
      (parseMembers fuel (quote k ++ tail)).map fun r =>
        (.obj (r.1.foldl (fun o m => defineProp o m.1 m.2) []), r.2) := by
  rw [parseValue, skipWs_cons 123 _ (by decide)]
  simp only [quote, List.cons_append]
  rw [skipWs_cons 34 _ (by decide)]
  simp

/-- A task object is read back as written. -/
theorem parseValue_task (fuel : Nat) (t : Task) (rest : JsString) :
    parseValue (fuel + 7) (stringify t.toJs ++ rest) = some (t.toJs, rest) := by
  rw [stringify_task, parseValue_object,
    parseMembers_comma _ _ _ _ (parseValue_quote _ _ _),
    parseMembers_comma _ _ _ _ (parseValue_quote _ _ _),
    parseMembers_comma _ _ _ _ (parseValue_quote _ _ _),
    parseMembers_comma _ _ _ _ (parseValue_bool _ _ _),
    parseMembers_last _ _ _ _ (parseValue_quote _ _ _)]
  rfl

theorem stringifyItems_cons_cons (v w : JsValue) (rest : List JsValue) :
    stringifyItems (v :: w :: rest) = stringify v ++ 44 :: stringifyItems (w :: rest) := by
  rw [stringifyItems]

theorem stringifyItems_singleton (v : JsValue) : stringifyItems [v] = stringify v := by
  rw [stringifyItems]

/-- The text of a task object starts with its opening brace. -/
theorem stringify_task_head (t : Task) :
    ∃ tail, stringify t.toJs = 123 :: tail ∧ 1 ≤ tail.length := by
  rw [Task.toJs, stringify_obj]
  exact ⟨_, rfl, by simp⟩

/-- The tasks of a non-empty array, up to the closing bracket, are read back
as written. -/
theorem parseElements_tasks (fuel : Nat) (t : Task) (ts : List Task) (rest : JsString) :
    parseElements (fuel + ts.length + 8) (stringifyItems ((t :: ts).map Task.toJs) ++ 93 :: rest) =
      some ((t :: ts).map Task.toJs, rest) := by
  induction ts generalizing t fuel with
  | nil =>
    rw [List.map_singleton, stringifyItems_singleton, List.length_nil, Nat.add_zero,
      parseElements, parseValue_task fuel t (93 :: rest)]
    simp only []
    rw [skipWs_cons 93 _ (by decide)]
    simp
  | cons u us ih =>
    rw [List.map_cons, List.map_cons, stringifyItems_cons_cons, List.append_assoc,
      List.cons_append, List.length_cons, ← List.map_cons]
    have hfuel : fuel + (us.length + 1) + 8 = (fuel + 1 + us.length + 7) + 1 := by omega
    rw [hfuel, parseElements, parseValue_task _ t]
    simp only []
    rw [skipWs_cons 44 _ (by decide)]
    have hfuel2 : fuel + 1 + us.length + 7 = fuel + us.length + 8 := by omega
    simp only [if_true, hfuel2, ih]
    rfl

/-- Each task object takes at least two code units. -/
theorem length_stringifyItems_tasks (ts : List Task) :
    2 * ts.length ≤ (stringifyItems (ts.map Task.toJs)).length := by
  induction ts with
  | nil => simp
  | cons t ts ih =>
    obtain ⟨tail, htail, hlen⟩ := stringify_task_head t
    cases ts with
    | nil =>
      rw [List.map_singleton, stringifyItems_singleton, htail]
      simp only [List.length_cons, List.length_nil]
      omega
    | cons u us =>
      rw [List.map_cons, List.map_cons, stringifyItems_cons_cons, htail, ← List.map_cons]
      simp only [List.length_cons, List.length_append] at ih ⊢
      omega

/-- The host's `JSON.parse` reads back the text `JSON.stringify` writes for a collection
of tasks. -/
theorem parse_stringify_tasks (tasks : List Task) :
    parse (stringify (tasksToJs tasks)) = .ok (tasksToJs tasks) := by
  cases tasks with
  | nil => rfl
  | cons t ts =>
    have hlen := length_stringifyItems_tasks (t :: ts)
    obtain ⟨tail, htail, -⟩ := stringify_task_head t
    have hhead : ∃ tail2, stringifyItems ((t :: ts).map Task.toJs) = 123 :: tail2 := by
      cases ts with
      | nil => exact ⟨tail, by rw [List.map_singleton, stringifyItems_singleton, htail]⟩
      | cons u us =>
        exact ⟨tail ++ 44 :: stringifyItems ((u :: us).map Task.toJs), by
          rw [List.map_cons, List.map_cons, stringifyItems_cons_cons, htail]; rfl⟩
    obtain ⟨tail2, htail2⟩ := hhead
    unfold parse
    rw [tasksToJs, stringify_arr]
    obtain ⟨k, hk⟩ : ∃ k, 2 * (91 :: stringifyItems ((t :: ts).map Task.toJs) ++ [93]).length + 2 =
        (k + ts.length + 8) + 1 := by
      refine ⟨2 * (91 :: stringifyItems ((t :: ts).map Task.toJs) ++ [93]).length + 2 -
        (ts.length + 9), ?_⟩
      simp only [List.length_cons, List.length_append, List.length_nil] at hlen ⊢
      omega
    rw [hk, parseValue, List.cons_append, skipWs_cons 91 _ (by decide)]
    simp only []
    have hrest := parseElements_tasks k t ts []
    rw [htail2] at hrest ⊢
    rw [List.cons_append, skipWs_cons 123 _ (by decide)]
    simp only [List.cons_append] at hrest
    simp [hrest, skipWs]

end JSON

/-! ## The fuel of `JSON.parse` -/

namespace JSON

/-- One more unit of fuel changes no result. -/
theorem parse_mono (f : Nat) :
    (∀ s r, parseValue f s = some r → parseValue (f + 1) s = some r) ∧
    (∀ s r, parseElements f s = some r → parseElements (f + 1) s = some r) ∧
    (∀ s r, parseMembers f s = some r → parseMembers (f + 1) s = some r) := by
  induction f with
  | zero =>
    refine ⟨?_, ?_, ?_⟩ <;> intro s r h
    · rw [parseValue] at h; cases h
    · rw [parseElements] at h; cases h
    · rw [parseMembers] at h; cases h
  | succ f ih =>
    obtain ⟨ihV, ihE, ihM⟩ := ih
    refine ⟨?_, ?_, ?_⟩
    · intro s r h
      rw [parseValue] at h ⊢
      cases hs : skipWs s with
      | nil => rw [hs] at h; cases h
      | cons c rest =>
        rw [hs] at h
        simp only at h ⊢
        split_ifs at h ⊢ with h34 h91 h123
        · exact h
        · cases hr : skipWs rest with
          | nil => rw [hr] at h; cases h
          | cons d rest1 =>
            rw [hr] at h
            simp only at h ⊢
            split_ifs at h ⊢ with h93
            · exact h
            · cases hE : parseElements f (d :: rest1) with
              | none => rw [hE] at h; cases h
              | some r1 => rw [hE] at h; rw [ihE _ _ hE]; exact h
        · cases hr : skipWs rest with
          | nil => rw [hr] at h; cases h
          | cons d rest1 =>
            rw [hr] at h
            simp only at h ⊢
            split_ifs at h ⊢ with h125
            · exact h
            · cases hM : parseMembers f (d :: rest1) with
              | none => rw [hM] at h; cases h
              | some r1 => rw [hM] at h; rw [ihM _ _ hM]; exact h
        all_goals exact h
    · intro s r h
      rw [parseElements] at h ⊢
      cases hV : parseValue f s with
      | none => rw [hV] at h; cases h
      | some r1 =>
        obtain ⟨v, s1⟩ := r1
        rw [hV] at h; rw [ihV _ _ hV]
        simp only at h ⊢
        cases hs : skipWs s1 with
        | nil => rw [hs] at h; cases h
        | cons d rest =>
          rw [hs] at h
          simp only at h ⊢
          split_ifs at h ⊢ with h44 h93
          · cases hE : parseElements f rest with
            | none => rw [hE] at h; cases h
            | some r2 => rw [hE] at h; rw [ihE _ _ hE]; exact h
          · exact h
    · intro s r h
      rw [parseMembers] at h ⊢
      cases hs : skipWs s with
      | nil => rw [hs] at h; cases h
      | cons q s0 =>
        rw [hs] at h
        simp only at h ⊢
        split_ifs at h ⊢ with h34
        · cases hk : parseChars s0 with
          | none => rw [hk] at h; cases h
          | some kr =>
            obtain ⟨k, s1⟩ := kr
            rw [hk] at h
            simp only at h ⊢
            cases hs1 : skipWs s1 with
            | nil => rw [hs1] at h; cases h
            | cons colon s2 =>
              rw [hs1] at h
              simp only at h ⊢
              split_ifs at h ⊢ with h58
              · cases hV : parseValue f s2 with
                | none => rw [hV] at h; cases h
                | some r1 =>
                  obtain ⟨v, s3⟩ := r1
                  rw [hV] at h; rw [ihV _ _ hV]
                  simp only at h ⊢
                  cases hs3 : skipWs s3 with
                  | nil => rw [hs3] at h; cases h
                  | cons d rest =>
                    rw [hs3] at h
                    simp only at h ⊢
                    split_ifs at h ⊢ with h44 h125
                    · cases hM : parseMembers f rest with
                      | none => rw [hM] at h; cases h
                      | some r2 => rw [hM] at h; rw [ihM _ _ hM]; exact h
                    · exact h

theorem length_skipWs_le (s : JsString) : (skipWs s).length ≤ s.length :=
  (List.dropWhile_sublist isWs).length_le

theorem length_of_skipWs_cons (s : JsString) (c : Nat) (rest : JsString)
    (h : skipWs s = c :: rest) : rest.length < s.length := by
  have := length_skipWs_le s
  rw [h] at this
  simpa using this

theorem length_takeDigits_le (s : JsString) : (takeDigits s).2.length ≤ s.length := by
  rw [takeDigits, List.span_eq_take_drop]
  exact (List.dropWhile_sublist isDigit).length_le

theorem length_of_map_cons {α : Type} (x : Option (List α × JsString)) (f : List α → List α)
    (bound : Nat) (hx : ∀ k r, x = some (k, r) → r.length ≤ bound) (k : List α) (r : JsString)
    (h : x.map (fun p => (f p.1, p.2)) = some (k, r)) : r.length ≤ bound := by
  cases x with
  | none => cases h
  | some p =>
    obtain ⟨k1, r1⟩ := p
    simp only [Option.map_some', Option.some.injEq, Prod.mk.injEq] at h
    rw [← h.2]
    exact hx k1 r1 rfl

theorem length_parseChars_aux (n : Nat) :
    ∀ s : JsString, s.length ≤ n → ∀ k r, parseChars s = some (k, r) → r.length ≤ s.length := by
  induction n with
  | zero =>
    intro s hs k r h
    have : s = [] := List.length_eq_zero.mp (Nat.le_zero.mp hs)
    subst this
    rw [parseChars] at h
    cases h
  | succ n ih =>
    intro s hs k r h
    cases s with
    | nil => rw [parseChars] at h; cases h
    | cons c rest =>
      have hrest : rest.length ≤ n := by simpa using hs
      conv at h => lhs; unfold parseChars
      split_ifs at h with h34 h92 h32
      · simp only [Option.some.injEq, Prod.mk.injEq] at h
        rw [← h.2]
        simp
      · cases rest with
        | nil => cases h
        | cons e rest1 =>
          have hrest1 : rest1.length ≤ n := by simp at hrest; omega
          simp only at h
          split_ifs at h with h117
          · match rest1, hrest1, h with
            | h1 :: h2 :: h3 :: h4 :: rest2, hrest2, h =>
              simp only at h
              cases hx : hex4 h1 h2 h3 h4 with
              | none => rw [hx] at h; cases h
              | some u =>
                rw [hx] at h
                have := length_of_map_cons (parseChars rest2) (fun l => u :: l) rest2.length
                  (fun k r hk => ih rest2 (by simp at hrest2; omega) k r hk) k r h
                simp only [List.length_cons]
                omega
          · cases hx : unescape e with
            | none => rw [hx] at h; cases h
            | some u =>
              rw [hx] at h
              have := length_of_map_cons (parseChars rest1) (fun l => u :: l) rest1.length
                (fun k r hk => ih rest1 hrest1 k r hk) k r h
              simp only [List.length_cons]
              omega
      · have := length_of_map_cons (parseChars rest) (fun l => c :: l) rest.length
          (fun k r hk => ih rest hrest k r hk) k r h
        simp only [List.length_cons]
        omega

theorem length_parseChars_le (s k r : JsString) (h : parseChars s = some (k, r)) :
    r.length ≤ s.length :=
  length_parseChars_aux s.length s (Nat.le_refl _) k r h

theorem length_parseInt_le (s int r : JsString) (h : parseInt s = some (int, r)) :
    r.length ≤ s.length := by
  unfold parseInt at h
  cases s with
  | nil => cases h
  | cons c rest =>
    simp only at h
    have := length_takeDigits_le rest
    split_ifs at h <;> simp only [Option.some.injEq, Prod.mk.injEq] at h <;>
      obtain ⟨-, rfl⟩ := h <;>
      first
      | exact Nat.le_refl _
      | (simp only [List.length_cons]; omega)

theorem length_parseFrac_le (s frac r : JsString) (h : parseFrac s = some (frac, r)) :
    r.length ≤ s.length := by
  unfold parseFrac at h
  cases s with
  | nil =>
    simp only [Option.some.injEq, Prod.mk.injEq] at h
    rw [← h.2]
  | cons c rest =>
    simp only at h
    have := length_takeDigits_le rest
    split_ifs at h <;> simp only [Option.some.injEq, Prod.mk.injEq] at h <;>
      obtain ⟨-, rfl⟩ := h <;>
      first
      | exact Nat.le_refl _
      | (simp only [List.length_cons]; omega)

theorem length_parseExpDigits_le (s : JsString) (f : JsString → JsString) (exp r : JsString)
    (h : (parseExpDigits s).map (fun p => (f p.1, p.2)) = some (exp, r)) :
    r.length ≤ s.length := by
  unfold parseExpDigits at h
  have := length_takeDigits_le s
  split_ifs at h
  · cases h
  · simp only [Option.map_some', Option.some.injEq, Prod.mk.injEq] at h
    rw [← h.2]
    exact this

theorem length_parseExp_le (s exp r : JsString) (h : parseExp s = some (exp, r)) :
    r.length ≤ s.length := by
  unfold parseExp at h
  cases s with
  | nil =>
    simp only [Option.some.injEq, Prod.mk.injEq] at h
    rw [← h.2]
  | cons c rest =>
    simp only at h
    split_ifs at h with he
    · cases rest with
      | nil => cases h
      | cons g rest1 =>
        simp only at h
        split_ifs at h with hg
        · have := length_parseExpDigits_le rest1 (fun l => c :: g :: l) exp r h
          simp only [List.length_cons]
          omega
        · have := length_parseExpDigits_le (g :: rest1) (fun l => c :: l) exp r h
          simp only [List.length_cons] at this ⊢
          omega
    · simp only [Option.some.injEq, Prod.mk.injEq] at h
      rw [← h.2]

theorem length_parseNumber_le (s literal r : JsString) (h : parseNumber s = some (literal, r)) :
    r.length ≤ s.length := by
  unfold parseNumber at h
  simp only at h
  have hsigned : (match s with
      | [] => (([] : JsString), ([] : JsString))
      | c :: rest => if c = 45 then ([45], rest) else ([], c :: rest)).2.length ≤ s.length := by
    cases s with
    | nil => simp
    | cons c rest =>
      simp only
      split_ifs <;> simp
  cases hint : parseInt (match s with
      | [] => (([] : JsString), ([] : JsString))
      | c :: rest => if c = 45 then ([45], rest) else ([], c :: rest)).2 with
  | none => rw [hint] at h; cases h
  | some p1 =>
    obtain ⟨int, s1⟩ := p1
    rw [hint] at h
    simp only at h
    have h1 := length_parseInt_le _ _ _ hint
    cases hfrac : parseFrac s1 with
    | none => rw [hfrac] at h; cases h
    | some p2 =>
      obtain ⟨frac, s2⟩ := p2
      rw [hfrac] at h
      simp only at h
      have h2 := length_parseFrac_le _ _ _ hfrac
      cases hexp : parseExp s2 with
      | none => rw [hexp] at h; cases h
      | some p3 =>
        obtain ⟨exp, s3⟩ := p3
        rw [hexp] at h
        simp only [Option.some.injEq, Prod.mk.injEq] at h
        have h3 := length_parseExp_le _ _ _ hexp
        rw [← h.2]
        omega

theorem map_fst_eq_some {α β : Type} (x : Option (α × JsString)) (g : α → β) (k : β)
    (r : JsString) (h : x.map (fun p => (g p.1, p.2)) = some (k, r)) :
    ∃ a, x = some (a, r) ∧ g a = k := by
  cases x with
  | none => cases h
  | some p =>
    obtain ⟨a, r1⟩ := p
    simp only [Option.map_some', Option.some.injEq, Prod.mk.injEq] at h
    exact ⟨a, by rw [h.2], h.1⟩

/-- A parser returns a suffix no longer than its input. -/
theorem parse_length_le (f : Nat) :
    (∀ s v r, parseValue f s = some (v, r) → r.length ≤ s.length) ∧
    (∀ s v r, parseElements f s = some (v, r) → r.length ≤ s.length) ∧
    (∀ s v r, parseMembers f s = some (v, r) → r.length ≤ s.length) := by
  induction f with
  | zero =>
    refine ⟨?_, ?_, ?_⟩ <;> intro s v r h
    · rw [parseValue] at h; cases h
    · rw [parseElements] at h; cases h
    · rw [parseMembers] at h; cases h
  | succ f ih =>
    obtain ⟨ihV, ihE, ihM⟩ := ih
    refine ⟨?_, ?_, ?_⟩
    · intro s v r h
      rw [parseValue] at h
      cases hs : skipWs s with
      | nil => rw [hs] at h; cases h
      | cons c rest =>
        rw [hs] at h
        have hlen := length_of_skipWs_cons s c rest hs
        simp only at h
        split_ifs at h with h34 h91 h123 htrue hfalse hnull
        · obtain ⟨k, hk, -⟩ := map_fst_eq_some _ _ _ _ h
          have := length_parseChars_le _ _ _ hk
          omega
        · cases hr : skipWs rest with
          | nil => rw [hr] at h; cases h
          | cons d rest1 =>
            rw [hr] at h
            have hlen1 := length_of_skipWs_cons rest d rest1 hr
            simp only at h
            split_ifs at h with h93
            · simp only [Option.some.injEq, Prod.mk.injEq] at h
              obtain ⟨-, rfl⟩ := h
              omega
            · obtain ⟨k, hk, -⟩ := map_fst_eq_some _ _ _ _ h
              have := ihE _ _ _ hk
              simp only [List.length_cons] at this
              omega
        · cases hr : skipWs rest with
          | nil => rw [hr] at h; cases h
          | cons d rest1 =>
            rw [hr] at h
            have hlen1 := length_of_skipWs_cons rest d rest1 hr
            simp only at h
            split_ifs at h with h125
            · simp only [Option.some.injEq, Prod.mk.injEq] at h
              obtain ⟨-, rfl⟩ := h
              omega
            · obtain ⟨k, hk, -⟩ := map_fst_eq_some _
                (fun ms : List (JsString × JsValue) =>
                  JsValue.obj (List.foldl (fun o m => defineProp o m.1 m.2) [] ms)) _ _ h
              have := ihM _ _ _ hk
              simp only [List.length_cons] at this
              omega
        · simp only [Option.some.injEq, Prod.mk.injEq] at h
          obtain ⟨-, rfl⟩ := h
          simp only [List.length_drop, List.length_cons]
          omega
        · simp only [Option.some.injEq, Prod.mk.injEq] at h
          obtain ⟨-, rfl⟩ := h
          simp only [List.length_drop, List.length_cons]
          omega
        · simp only [Option.some.injEq, Prod.mk.injEq] at h
          obtain ⟨-, rfl⟩ := h
          simp only [List.length_drop, List.length_cons]
          omega
        · obtain ⟨k, hk, -⟩ := map_fst_eq_some _ _ _ _ h
          have := length_parseNumber_le _ _ _ hk
          simp only [List.length_cons] at this
          omega
    · intro s v r h
      rw [parseElements] at h
      cases hV : parseValue f s with
      | none => rw [hV] at h; cases h
      | some r1 =>
        obtain ⟨v1, s1⟩ := r1
        rw [hV] at h
        have hlen := ihV _ _ _ hV
        simp only at h
        cases hs : skipWs s1 with
        | nil => rw [hs] at h; cases h
        | cons d rest =>
          rw [hs] at h
          have hlen1 := length_of_skipWs_cons s1 d rest hs
          simp only at h
          split_ifs at h with h44 h93
          · obtain ⟨k, hk, -⟩ := map_fst_eq_some _ _ _ _ h
            have := ihE _ _ _ hk
            omega
          · simp only [Option.some.injEq, Prod.mk.injEq] at h
            obtain ⟨-, rfl⟩ := h
            omega
    · intro s v r h
      rw [parseMembers] at h
      cases hs : skipWs s with
      | nil => rw [hs] at h; cases h
      | cons q s0 =>
        rw [hs] at h
        have hlen := length_of_skipWs_cons s q s0 hs
        simp only at h
        split_ifs at h with h34
        cases hk : parseChars s0 with
        | none => rw [hk] at h; cases h
        | some kr =>
          obtain ⟨k, s1⟩ := kr
          rw [hk] at h
          have hlenk := length_parseChars_le _ _ _ hk
          simp only at h
          cases hs1 : skipWs s1 with
          | nil => rw [hs1] at h; cases h
          | cons colon s2 =>
            rw [hs1] at h
            have hlen1 := length_of_skipWs_cons s1 colon s2 hs1
            simp only at h
            split_ifs at h with h58
            cases hV : parseValue f s2 with
            | none => rw [hV] at h; cases h
            | some r1 =>
              obtain ⟨v1, s3⟩ := r1
              rw [hV] at h
              have hlenv := ihV _ _ _ hV
              simp only at h
              cases hs3 : skipWs s3 with
              | nil => rw [hs3] at h; cases h
              | cons d rest =>
                rw [hs3] at h
                have hlen3 := length_of_skipWs_cons s3 d rest hs3
                simp only at h
                split_ifs at h with h44 h125
                · obtain ⟨m, hm, -⟩ := map_fst_eq_some _ _ _ _ h
                  have := ihM _ _ _ hm
                  omega
                · simp only [Option.some.injEq, Prod.mk.injEq] at h
                  obtain ⟨-, rfl⟩ := h
                  omega

theorem parse_mono_le (f g : Nat) (hfg : f ≤ g) :
    (∀ s r, parseValue f s = some r → parseValue g s = some r) ∧
    (∀ s r, parseElements f s = some r → parseElements g s = some r) ∧
    (∀ s r, parseMembers f s = some r → parseMembers g s = some r) := by
  induction g with
  | zero =>
    have : f = 0 := Nat.le_zero.mp hfg
    subst this
    exact ⟨fun _ _ h => h, fun _ _ h => h, fun _ _ h => h⟩
  | succ g ih =>
    rcases Nat.lt_or_ge f (g + 1) with hlt | hge
    · obtain ⟨ihV, ihE, ihM⟩ := ih (Nat.lt_succ_iff.mp hlt)
      obtain ⟨mV, mE, mM⟩ := parse_mono g
      exact ⟨fun s r h => mV s r (ihV s r h), fun s r h => mE s r (ihE s r h),
        fun s r h => mM s r (ihM s r h)⟩
    · have : f = g + 1 := Nat.le_antisymm hfg hge
      subst this
      exact ⟨fun _ _ h => h, fun _ _ h => h, fun _ _ h => h⟩

/-- Fuel proportional to the length of the text is enough: a result obtained
with any fuel is obtained with it. -/
theorem parse_fuel (f : Nat) :
    (∀ s r, parseValue f s = some r → parseValue (2 * s.length + 1) s = some r) ∧
    (∀ s r, parseElements f s = some r → parseElements (2 * s.length + 2) s = some r) ∧
    (∀ s r, parseMembers f s = some r → parseMembers (2 * s.length + 2) s = some r) := by
  induction f with
  | zero =>
    refine ⟨?_, ?_, ?_⟩ <;> intro s r h
    · rw [parseValue] at h; cases h
    · rw [parseElements] at h; cases h
    · rw [parseMembers] at h; cases h
  | succ f ih =>
    obtain ⟨ihV, ihE, ihM⟩ := ih
    refine ⟨?_, ?_, ?_⟩
    · intro s r h
      rw [parseValue] at h ⊢
      cases hs : skipWs s with
      | nil => rw [hs] at h; cases h
      | cons c rest =>
        rw [hs] at h
        have hlen := length_of_skipWs_cons s c rest hs
        simp only at h ⊢
        split_ifs at h ⊢ with h34 h91 h123
        · exact h
        · cases hr : skipWs rest with
          | nil => rw [hr] at h; cases h
          | cons d rest1 =>
            rw [hr] at h
            have hlen1 := length_of_skipWs_cons rest d rest1 hr
            simp only at h ⊢
            split_ifs at h ⊢ with h93
            · exact h
            · cases hE : parseElements f (d :: rest1) with
              | none => rw [hE] at h; cases h
              | some r1 =>
                rw [hE] at h
                have hfuel : 2 * (d :: rest1).length + 2 ≤ 2 * s.length := by
                  simp only [List.length_cons]; omega
                rw [(parse_mono_le _ _ hfuel).2.1 _ _ (ihE _ _ hE)]
                exact h
        · cases hr : skipWs rest with
          | nil => rw [hr] at h; cases h
          | cons d rest1 =>
            rw [hr] at h
            have hlen1 := length_of_skipWs_cons rest d rest1 hr
            simp only at h ⊢
            split_ifs at h ⊢ with h125
            · exact h
            · cases hM : parseMembers f (d :: rest1) with
              | none => rw [hM] at h; cases h
              | some r1 =>
                rw [hM] at h
                have hfuel : 2 * (d :: rest1).length + 2 ≤ 2 * s.length := by
                  simp only [List.length_cons]; omega
                rw [(parse_mono_le _ _ hfuel).2.2 _ _ (ihM _ _ hM)]
                exact h
        all_goals exact h
    · intro s r h
      rw [parseElements] at h ⊢
      cases hV : parseValue f s with
      | none => rw [hV] at h; cases h
      | some r1 =>
        obtain ⟨v, s1⟩ := r1
        rw [hV] at h; rw [ihV _ _ hV]
        have hlen := (parse_length_le f).1 _ _ _ hV
        simp only at h ⊢
        cases hs : skipWs s1 with
        | nil => rw [hs] at h; cases h
        | cons d rest =>
          rw [hs] at h
          have hlen1 := length_of_skipWs_cons s1 d rest hs
          simp only at h ⊢
          split_ifs at h ⊢ with h44 h93
          · cases hE : parseElements f rest with
            | none => rw [hE] at h; cases h
            | some r2 =>
              rw [hE] at h
              have hfuel : 2 * rest.length + 2 ≤ 2 * s.length + 1 := by omega
              rw [(parse_mono_le _ _ hfuel).2.1 _ _ (ihE _ _ hE)]
              exact h
          · exact h
    · intro s r h
      rw [parseMembers] at h ⊢
      cases hs : skipWs s with
      | nil => rw [hs] at h; cases h
      | cons q s0 =>
        rw [hs] at h
        have hlen := length_of_skipWs_cons s q s0 hs
        simp only at h ⊢
        split_ifs at h ⊢ with h34
        · cases hk : parseChars s0 with
          | none => rw [hk] at h; cases h
          | some kr =>
            obtain ⟨k, s1⟩ := kr
            rw [hk] at h
            have hlenk := length_parseChars_le _ _ _ hk
            simp only at h ⊢
            cases hs1 : skipWs s1 with
            | nil => rw [hs1] at h; cases h
            | cons colon s2 =>
              rw [hs1] at h
              have hlen1 := length_of_skipWs_cons s1 colon s2 hs1
              simp only at h ⊢
              split_ifs at h ⊢ with h58
              · cases hV : parseValue f s2 with
                | none => rw [hV] at h; cases h
                | some r1 =>
                  obtain ⟨v, s3⟩ := r1
                  rw [hV] at h
                  have hlenv := (parse_length_le f).1 _ _ _ hV
                  have hfuel : 2 * s2.length + 1 ≤ 2 * s.length + 1 := by omega
                  rw [(parse_mono_le _ _ hfuel).1 _ _ (ihV _ _ hV)]
                  simp only at h ⊢
                  cases hs3 : skipWs s3 with
                  | nil => rw [hs3] at h; cases h
                  | cons d rest =>
                    rw [hs3] at h
                    have hlen3 := length_of_skipWs_cons s3 d rest hs3
                    simp only at h ⊢
                    split_ifs at h ⊢ with h44 h125
                    · cases hM : parseMembers f rest with
                      | none => rw [hM] at h; cases h
                      | some r2 =>
                        rw [hM] at h
                        have hfuel2 : 2 * rest.length + 2 ≤ 2 * s.length + 1 := by omega
                        rw [(parse_mono_le _ _ hfuel2).2.2 _ _ (ihM _ _ hM)]
                        exact h
                    · exact h

/-- The fuel of `parse` never runs out: `parse` returns a value exactly when
the recursive descent, with whatever fuel, reads one value and only white
space after it. -/
theorem parse_eq_ok_iff (text : JsString) (v : JsValue) :
    parse text = .ok v ↔
      ∃ fuel rest, parseValue fuel text = some (v, rest) ∧ skipWs rest = [] := by
  constructor
  · intro h
    unfold parse at h
    cases hp : parseValue (2 * text.length + 2) text with
    | none => rw [hp] at h; cases h
    | some p =>
      obtain ⟨w, rest⟩ := p
      rw [hp] at h
      simp only at h
      split_ifs at h with hrest
      cases h
      exact ⟨_, rest, hp, hrest⟩
  · rintro ⟨fuel, rest, hp, hrest⟩
    have h1 := (parse_fuel fuel).1 _ _ hp
    have h2 := (parse_mono _).1 _ _ h1
    unfold parse
    rw [h2]
    simp [hrest]

end JSON

/-! ## Persistence -/

theorem Task.toJs_injective (t u : Task) (h : t.toJs = u.toJs) : t = u := by
  cases t
  cases u
  simp only [Task.toJs, JsValue.obj.injEq, List.cons.injEq, Prod.mk.injEq, JsValue.str.injEq,
    JsValue.bool.injEq, true_and, and_true] at h
  obtain ⟨h1, h2, h3, h4, h5⟩ := h
  subst h1 h2 h3 h4 h5
  rfl

theorem tasksToJs_injective (ts us : List Task) (h : tasksToJs ts = tasksToJs us) : ts = us := by
  simp only [tasksToJs, JsValue.arr.injEq] at h
  exact List.map_injective_iff.mpr (fun t u => Task.toJs_injective t u) h

namespace TodoApp

theorem stringify_tasks_ne_nil (tasks : List Task) : JSON.stringify (tasksToJs tasks) ≠ [] := by
  rw [tasksToJs, JSON.stringify_arr]
  simp

/-- C8. Round trip: after a `saveTasks` whose write succeeds, `loadTasks` on the
stored value returns the array of the same task objects, in the same order
and with every field as it was; the empty collection is included. -/
theorem loadTasks_saveTasks (env : Env) (app : TodoApp) (hwrite : env.setItemThrows = false) :
    (saveTasks env app).storage = some (JSON.stringify (tasksToJs app.tasks)) ∧
      loadTasks (.ok (saveTasks env app).storage) = .ok (tasksToJs app.tasks) ∧
      (∀ loaded : List Task,
        loadTasks (.ok (saveTasks env app).storage) = .ok (tasksToJs loaded) →
          loaded = app.tasks) ∧
      (app.tasks = [] → loadTasks (.ok (saveTasks env app).storage) = .ok (.arr [])) := by
  have hstore : (saveTasks env app).storage = some (JSON.stringify (tasksToJs app.tasks)) := by
    unfold saveTasks
    simp [hwrite]
  have hload : loadTasks (.ok (saveTasks env app).storage) = .ok (tasksToJs app.tasks) := by
    rw [hstore]
    unfold loadTasks
    simp only [if_pos (stringify_tasks_ne_nil app.tasks), JSON.parse_stringify_tasks]
  refine ⟨hstore, hload, ?_, ?_⟩
  · intro loaded hloaded
    rw [hload] at hloaded
    exact (tasksToJs_injective _ _ (Except.ok.inj hloaded)).symm
  · intro hnil
    rw [hload, hnil]
    rfl

/-- Whatever `getItem` answers, `loadTasks` returns a value: the parsed value
when a non-empty text parses, the empty array in every other case. -/
theorem loadTasks_cases (getItem : Except JsError (Option JsString)) :
    (∃ text value, getItem = .ok (some text) ∧ text ≠ [] ∧ JSON.parse text = .ok value ∧
        loadTasks getItem = .ok value) ∨
      (loadTasks getItem = .ok (.arr []) ∧
        ∀ text, getItem = .ok (some text) → text ≠ [] → ∃ e, JSON.parse text = .error e) := by
  unfold loadTasks
  match getItem with
  | .error thrown => right; simp
  | .ok none => right; simp
  | .ok (some saved) =>
    by_cases hsaved : saved = []
    · right; simp [hsaved]
    · cases hparse : JSON.parse saved with
      | error e => right; simp [hsaved, hparse]
      | ok value => left; exact ⟨saved, value, rfl, hsaved, hparse, by simp [hsaved, hparse]⟩

/-- The paths of `loadTasks`. It raises no error, whatever is stored. It
returns the empty collection when reading the store throws, when the key is
missing, when the stored text is empty and when the text is not parseable as
JSON (`JSON.parse` throws: the recursive descent reads no value followed by
white space only, whatever its fuel). On a non-empty text that parses, the
value goes to the caller as it was parsed: no path looks at its shape. -/
theorem loadTasks_paths :
    (∀ getItem, ∃ value, loadTasks getItem = .ok value) ∧
      (∀ thrown, loadTasks (.error thrown) = .ok (.arr [])) ∧
      loadTasks (.ok none) = .ok (.arr []) ∧
      loadTasks (.ok (some [])) = .ok (.arr []) ∧
      (∀ text e, JSON.parse text = .error e → loadTasks (.ok (some text)) = .ok (.arr [])) ∧
      (∀ text,
        (∀ fuel value rest, JSON.parseValue fuel text = some (value, rest) →
          JSON.skipWs rest ≠ []) →
        loadTasks (.ok (some text)) = .ok (.arr [])) ∧
      (∀ text value, text ≠ [] → JSON.parse text = .ok value →
        loadTasks (.ok (some text)) = .ok value) := by
  have herror : ∀ text e, JSON.parse text = .error e →
      loadTasks (.ok (some text)) = .ok (.arr []) := by
    intro text e hparse
    unfold loadTasks
    by_cases htext : text = []
    · simp [htext]
    · simp [htext, hparse]
  refine ⟨?_, ?_, rfl, rfl, herror, ?_, ?_⟩
  · intro getItem
    rcases loadTasks_cases getItem with ⟨_, value, _, _, _, h⟩ | ⟨h, _⟩
    · exact ⟨value, h⟩
    · exact ⟨_, h⟩
  · intro thrown; rfl
  · intro text hnone
    cases hparse : JSON.parse text with
    | error e => exact herror text e hparse
    | ok value =>
      obtain ⟨fuel, rest, hvalue, hrest⟩ := (JSON.parse_eq_ok_iff text value).mp hparse
      exact absurd hrest (hnone fuel value rest hvalue)
  · intro text value htext hparse
    unfold loadTasks
    simp [htext, hparse]

/-- C9 at the failing inputs: the stored texts `null`, `{}` and `5` are no
encoding of an array of tasks, and `loadTasks` returns what they encode where
the empty collection is required. -/
theorem loadTasks_not_validated :
    (loadTasks (.ok (some (utf16 "null"))) = .ok .null ∧
        loadTasks (.ok (some (utf16 "null"))) ≠ .ok (.arr [])) ∧
      (loadTasks (.ok (some (utf16 "\x7b\x7d"))) = .ok (.obj []) ∧
        loadTasks (.ok (some (utf16 "\x7b\x7d"))) ≠ .ok (.arr [])) ∧
      (loadTasks (.ok (some (utf16 "5"))) = .ok (.num (utf16 "5")) ∧
        loadTasks (.ok (some (utf16 "5"))) ≠ .ok (.arr [])) := by
  have h1 : loadTasks (.ok (some (utf16 "null"))) = .ok .null := by rfl
  have h2 : loadTasks (.ok (some (utf16 "\x7b\x7d"))) = .ok (.obj []) := by rfl
  have h3 : loadTasks (.ok (some (utf16 "5"))) = .ok (.num (utf16 "5")) := by rfl
  refine ⟨⟨h1, ?_⟩, ⟨h2, ?_⟩, ⟨h3, ?_⟩⟩
  · rw [h1]; simp
  · rw [h2]; simp
  · rw [h3]; simp

end TodoApp

/-! ## Uniqueness of ids -/

namespace TodoApp

theorem toggleComplete_ids (env : Env) (taskId : JsString) (app : TodoApp) :
    ids (toggleComplete env taskId app).tasks = ids app.tasks := by
  rcases exists_split taskId app.tasks with ⟨pre, t, post, h, hpre, ht⟩ | hall
  · rw [toggleComplete_tasks_of_split env taskId app pre t post h hpre ht, h]
    simp [ids, flipped]
  · rw [toggleComplete_tasks_of_absent env taskId app hall]

theorem deleteTask_ids_sublist (env : Env) (taskId : JsString) (app : TodoApp) :
    (ids (deleteTask env taskId app).tasks).Sublist (ids app.tasks) := by
  unfold deleteTask
  split
  · rw [saveTasks_tasks]
    exact (List.filter_sublist _).map _
  · exact List.Sublist.refl _

theorem addTask_ids_of_blank (env : Env) (app : TodoApp) (hblank : trim app.taskInput = []) :
    ids (addTask env app).tasks = ids app.tasks := by
  unfold addTask
  simp [hblank, showError]

theorem addTask_ids (env : Env) (app : TodoApp) :
    ids (addTask env app).tasks = ids app.tasks ∨
      ids (addTask env app).tasks = generateId env :: ids app.tasks := by
  unfold addTask
  by_cases h : trim app.taskInput = []
  · left; simp [h, showError]
  · right; simp [h, ids]

end TodoApp

/-- One action keeps the ids distinct when the id it generates is new. -/
theorem step_nodup (app : TodoApp) (event : Env × Action) (hnodup : (ids app.tasks).Nodup)
    (hfresh : freshIds app [event] = true) : (ids (step app event).tasks).Nodup := by
  obtain ⟨env, action⟩ := event
  cases action with
  | addTask text priority =>
    simp only [freshIds, Bool.and_true, Bool.or_eq_true, decide_eq_true_eq,
      Bool.not_eq_true', List.contains_eq_any_beq, List.any_eq_false, beq_iff_eq] at hfresh
    rcases hfresh with hblank | hfresh
    · simp only [step]
      rw [TodoApp.addTask_ids_of_blank env _ hblank]
      exact hnodup
    · have hnew : TodoApp.generateId env ∉ ids app.tasks := fun hmem => hfresh _ hmem rfl
      rcases TodoApp.addTask_ids env { app with taskInput := text, prioritySelect := priority }
        with h | h
      · simp only [step]; rw [h]; exact hnodup
      · simp only [step]; rw [h]; exact List.nodup_cons.mpr ⟨hnew, hnodup⟩
  | toggleComplete taskId =>
    simp only [step]
    rw [TodoApp.toggleComplete_ids]
    exact hnodup
  | deleteTask taskId =>
    simp only [step]
    exact hnodup.sublist (TodoApp.deleteTask_ids_sublist env taskId app)

theorem freshIds_cons (app : TodoApp) (event : Env × Action) (rest : List (Env × Action)) :
    freshIds app (event :: rest) = (freshIds app [event] && freshIds (step app event) rest) := by
  simp [freshIds]

/-- From a collection with distinct ids, every state reached by `addTask`,
`toggleComplete` and `deleteTask` has distinct ids as long as each id that
`generateId` returns is carried by no task at that moment: a duplicate can
only come from `generateId`, or from the stored collection. -/
theorem ids_nodup_of_fresh (app : TodoApp) (events : List (Env × Action))
    (hnodup : (ids app.tasks).Nodup) (hfresh : freshIds app events = true) :
    (ids (run app events).tasks).Nodup := by
  induction events generalizing app with
  | nil => exact hnodup
  | cons event rest ih =>
    rw [freshIds_cons, Bool.and_eq_true] at hfresh
    exact ih (step app event) (step_nodup app event hnodup hfresh.1) hfresh.2

/-! ## The properties at sample inputs -/

namespace TodoApp

/-- C1 at a sample input: `  Buy milk  ` with priority `high` goes in front. -/
theorem addTask_prepends_witness :
    trim sampleApp.taskInput ≠ [] ∧
      (addTask sampleEnv sampleApp).tasks =
        [{ id := utf16 "loyw3v284fzyo82mvyr", text := utf16 "Buy milk", priority := utf16 "high",
           completed := false, createdAt := utf16 "2023-11-14T22:13:20.000Z" },
         milkTask, reportTask] :=
  ⟨by decide, (addTask_prepends sampleEnv sampleApp (by decide)).1.trans (by decide)⟩

/-- C2 at a sample input: spaces, a tab and a no-break space are refused. -/
theorem addTask_blank_witness :
    (∀ c ∈ blankApp.taskInput, isWhiteSpace c = true) ∧
      (addTask sampleEnv blankApp).tasks = [milkTask, reportTask] ∧
      (addTask sampleEnv blankApp).errorMessage = some (utf16 "Please enter a task!") :=
  ⟨by decide, (addTask_blank sampleEnv blankApp (by decide)).2.1,
    (addTask_blank sampleEnv blankApp (by decide)).2.2.2.2⟩

/-- C3 at a sample input: of two tasks with the id `a1` the first is flipped;
an id that no task carries changes nothing. -/
theorem toggleComplete_frame_witness :
    (toggleComplete sampleEnv (utf16 "a1") twinApp).tasks =
        [reportTask, { milkTask with completed := true }, twinTask] ∧
      toggleComplete sampleEnv (utf16 "zz") twinApp = twinApp :=
  ⟨by decide, (toggleComplete_frame sampleEnv (utf16 "zz") twinApp).2.1 (by decide)⟩

/-- C4 at a sample input. -/
theorem deleteTask_removes_witness :
    sampleEnv.confirm = true ∧
      (deleteTask sampleEnv (utf16 "a1") sampleApp).tasks = [reportTask] ∧
      (deleteTask sampleEnv (utf16 "zz") sampleApp).tasks = [milkTask, reportTask] :=
  ⟨rfl, (deleteTask_removes sampleEnv (utf16 "a1") sampleApp rfl).1.trans (by decide),
    ((deleteTask_removes sampleEnv (utf16 "zz") sampleApp rfl).2.2.2 (by decide)).1⟩

/-- C5, as the code has it, at a sample input: the search ` MILK ` under the
filter `all` keeps the task `Buy Milk`. -/
theorem getFilteredTasks_spec_witness :
    searchApp.currentFilter = Status.all.name ∧
      getFilteredTasks unicodeExcerpt searchApp = [milkTask] ∧
      getFilteredTasks unicodeExcerpt blankSearchApp = [milkTask, reportTask] ∧
      containsIgnoringCase milkTask.text (trim searchApp.searchInput) :=
  ⟨rfl, (getFilteredTasks_spec unicodeExcerpt Status.all searchApp rfl).1.trans (by decide),
    ((getFilteredTasks_spec unicodeExcerpt Status.all blankSearchApp rfl).2.2.2.2.1
      unicodeExcerpt_whiteSpace (by decide)).trans (by decide),
    (((getFilteredTasks_spec unicodeExcerpt Status.all searchApp rfl).2.2.2.2.2.2.1
      unicodeExcerpt_ascii (by decide) milkTask (by decide)).mp (by decide)).2.2⟩

/-- C6 at a sample input. -/
theorem updateStats_sum_witness :
    updateStats twinApp = { total := 3, completed := 2, pending := 1 } ∧
      (updateStats twinApp).total = (updateStats twinApp).completed + (updateStats twinApp).pending :=
  ⟨by decide, (updateStats_sum twinApp).2.2.2.2.1⟩

/-- C7 at a sample input, where two tasks share the id. -/
theorem toggleComplete_twice_witness :
    (toggleComplete laterEnv (utf16 "a1") (toggleComplete sampleEnv (utf16 "a1") twinApp)).tasks =
      [reportTask, milkTask, twinTask] :=
  (toggleComplete_twice sampleEnv laterEnv (utf16 "a1") twinApp).1

/-- C8 at a sample input, and for the empty collection. -/
theorem loadTasks_saveTasks_witness :
    sampleEnv.setItemThrows = false ∧
      loadTasks (.ok (saveTasks sampleEnv sampleApp).storage) =
        .ok (tasksToJs [milkTask, reportTask]) ∧
      loadTasks (.ok (saveTasks sampleEnv emptyApp).storage) = .ok (.arr []) :=
  ⟨rfl, (loadTasks_saveTasks sampleEnv sampleApp rfl).2.1,
    (loadTasks_saveTasks sampleEnv emptyApp rfl).2.2.2 rfl⟩

end TodoApp

/-- A sample sequence of actions during which `generateId` returns new ids. -/
theorem ids_nodup_of_fresh_sample :
    (ids emptyApp.tasks).Nodup ∧
      freshIds emptyApp
        [(sampleEnv, .addTask (utf16 "Write report") (utf16 "medium")),
         (laterEnv, .addTask (utf16 "Call client") (utf16 "high")),
         (sampleEnv, .toggleComplete (utf16 "loyw3v284fzyo82mvyr")),
         (sampleEnv, .deleteTask (utf16 "loyw3v29k2j8d1x9qpe"))] = true ∧
      (ids (run emptyApp
        [(sampleEnv, .addTask (utf16 "Write report") (utf16 "medium")),
         (laterEnv, .addTask (utf16 "Call client") (utf16 "high")),
         (sampleEnv, .toggleComplete (utf16 "loyw3v284fzyo82mvyr")),
         (sampleEnv, .deleteTask (utf16 "loyw3v29k2j8d1x9qpe"))]).tasks).Nodup :=
  ⟨by decide, by decide, ids_nodup_of_fresh emptyApp _ (by decide) (by decide)⟩

set_option maxRecDepth 100000 in
/-- C10 at the failing inputs. Nothing is stored, the collection loads empty,
and two `addTask` calls during which the clock and `Math.random` answer the
same leave two tasks with one id: `generateId` returns the same id twice and
`addTask` inserts it unchecked. A stored text with two records of one id
loads as a collection with two tasks of that id. -/
theorem duplicate_ids_reachable :
    (TodoApp.loadTasks (.ok none) = .ok (tasksToJs emptyApp.tasks) ∧
        (run emptyApp
          [(sampleEnv, .addTask (utf16 "Write report") (utf16 "medium")),
           (sampleEnv, .addTask (utf16 "Call client") (utf16 "high"))]).tasks =
          [{ id := utf16 "loyw3v284fzyo82mvyr", text := utf16 "Call client",
             priority := utf16 "high", completed := false,
             createdAt := utf16 "2023-11-14T22:13:20.000Z" },
           { id := utf16 "loyw3v284fzyo82mvyr", text := utf16 "Write report",
             priority := utf16 "medium", completed := false,
             createdAt := utf16 "2023-11-14T22:13:20.000Z" }] ∧
        ¬ (ids (run emptyApp
          [(sampleEnv, .addTask (utf16 "Write report") (utf16 "medium")),
           (sampleEnv, .addTask (utf16 "Call client") (utf16 "high"))]).tasks).Nodup) ∧
      (TodoApp.loadTasks (.ok (some twinStore)) = .ok (tasksToJs [milkTask, twinTask]) ∧
        ¬ (ids [milkTask, twinTask]).Nodup) := by
  refine ⟨⟨rfl, by decide, by decide⟩, ⟨by rfl, by decide⟩⟩

/-- The end-to-end scenario of the specification: two tasks are created,
the older one is completed, and the counters and the `completed` view follow. -/
theorem scenario :
    (run emptyApp
        [(sampleEnv, .addTask (utf16 "Write report") (utf16 "medium")),
         (laterEnv, .addTask (utf16 "Call client") (utf16 "high"))]).tasks.map
        (fun t => (t.text, t.priority, t.completed)) =
      [(utf16 "Call client", utf16 "high", false),
       (utf16 "Write report", utf16 "medium", false)] ∧
    TodoApp.updateStats (run emptyApp
        [(sampleEnv, .addTask (utf16 "Write report") (utf16 "medium")),
         (laterEnv, .addTask (utf16 "Call client") (utf16 "high")),
         (laterEnv, .toggleComplete (utf16 "loyw3v284fzyo82mvyr"))]) =
      { total := 2, completed := 1, pending := 1 } ∧
    (TodoApp.getFilteredTasks unicodeExcerpt
        (TodoApp.setFilter (utf16 "completed") (run emptyApp
          [(sampleEnv, .addTask (utf16 "Write report") (utf16 "medium")),
           (laterEnv, .addTask (utf16 "Call client") (utf16 "high")),
           (laterEnv, .toggleComplete (utf16 "loyw3v284fzyo82mvyr"))]))).map
        (fun t => t.text) = [utf16 "Write report"] := by
  refine ⟨by decide, by decide, by decide⟩

end Todo
